import Mathlib

/-!
Verification of the two ChessDuo tooling scripts against their specification.

The repository contains two Python batch converters:

* `export_metadata.py` — reads a language-tagged text file and writes per-locale
  App Store metadata files;
* `scripts/generate_localizable_xcstring.py` — parses per-locale `.strings`
  resource files and consolidates them into one `.xcstrings` catalog.

This file gives a shallow embedding of both scripts.  Text is modelled as
`List Char` (Python `str` restricted to the characters the repository's data
actually uses; Python `\s` and `str.strip` are modelled by the six ASCII
whitespace characters).  The Python regular expressions used by the scripts
were each translated to an equivalent deterministic matcher; the regex
semantics (match positions, `re.MULTILINE` anchors, greedy `\s*` with
backtracking before `$`, `str.splitlines`, chained `str.replace`) are spelled
out in the doc comments of the corresponding definitions.
-/

namespace ChessDuo

/-- The six ASCII characters matched by Python's `\s` (and stripped by
`str.strip()`): space, tab, newline, carriage return, vertical tab, form feed. -/
def isPyWs (c : Char) : Bool :=
  c = ' ' || c = '\t' || c = '\n' || c = '\r' || c = Char.ofNat 11 || c = Char.ofNat 12

/-- Python `str.strip()`: remove leading and trailing whitespace. -/
def pyStrip (s : List Char) : List Char :=
  ((s.dropWhile isPyWs).reverse.dropWhile isPyWs).reverse

/-- Split a character sequence at every newline.  The result always has one
more element than the number of `'\n'` characters; a trailing newline yields a
trailing empty line.  (`"a\nb"` ↦ `["a","b"]`, `"a\n"` ↦ `["a",""]`.) -/
def splitNl : List Char → List (List Char)
  | [] => [[]]
  | c :: cs =>
    match splitNl cs with
    | [] => if c = '\n' then [[], []] else [[c]]
    | l :: ls => if c = '\n' then [] :: l :: ls else (c :: l) :: ls

/-- Python `str.splitlines()` (for text whose only line break is `'\n'`): like
`splitNl`, but a trailing newline produces no trailing empty line. -/
def pySplitlines (s : List Char) : List (List Char) :=
  let r := splitNl s
  if r.getLast? = some [] then r.dropLast else r

end ChessDuo

namespace ExportMetadata

open ChessDuo

/-- The fixed language-name → App Store locale table of `export_metadata.py`. -/
def LOCALES : List (String × String) :=
  [("German", "de-DE"), ("English", "en-US"), ("Spanish", "es-ES"),
   ("French", "fr-FR"), ("Simplified Chinese", "zh-Hans")]

/-- First-match association lookup, the behaviour of a Python `dict` lookup on
an association list with distinct keys. -/
def alook {α β : Type} [DecidableEq α] (k : α) (l : List (α × β)) : Option β :=
  (l.find? (fun p => p.1 = k)).map (·.2)

/-- One left-to-right pass of `re.sub(r"^\s+", "", s, flags=re.MULTILINE)`.
The flag records whether the current position can start a match, i.e. is the
start of the string, just after a `'\n'`, or inside a whitespace run that
started at such a position.  Since `\s` matches `'\n'`, a matched run swallows
the newlines it reaches, so a blank line is removed together with its line
break. -/
def subLineLeadWs : Bool → List Char → List Char
  | _, [] => []
  | b, c :: cs =>
    if b && isPyWs c then subLineLeadWs true cs
    else c :: subLineLeadWs (c = '\n') cs

/-- Function `clean_desc` of `export_metadata.py`: delete every whitespace run that
starts at a line start (`re.sub(r"^\s+", "", ..., re.MULTILINE)`), then
`str.strip()` the whole text and append one `'\n'`. -/
def clean_desc (s : List Char) : List Char :=
  pyStrip (subLineLeadWs true s) ++ ['\n']

/-- Does this line match `re.search(r"^Promotional Text:\s*$", ..., re.MULTILINE)`
at its line start: the literal marker, followed on that line only by
whitespace? -/
def markerLine (l : List Char) : Bool :=
  "Promotional Text:".data.isPrefixOf l && (l.drop 17).all isPyWs

/-- A line consisting solely of whitespace (possibly empty). -/
def allWsLine (l : List Char) : Bool := l.all isPyWs

/-- The line-level effect of the description extraction in
`export_metadata.py`.  The marker search ends (greedy `\s*`, backtracking to
the last position where `$` holds) just before the newline that terminates the
last all-whitespace line following the marker line, so
`content[match.end():]` starts with that newline; `splitlines()[1:]` then
removes only the empty first element this leading newline produces.  Hence the
lines contributing to the description are exactly the lines after the
whitespace-only run that follows the marker line.  Returns `none` when no line
matches the marker. -/
def descAfterMarker : List (List Char) → Option (List (List Char))
  | [] => none
  | l :: ls =>
    if markerLine l then some (ls.dropWhile allWsLine)
    else descAfterMarker ls

/-- Drop a final empty line, the difference between joining `splitNl` output
and what Python's `splitlines` keeps. -/
def dropLastEmpty (ls : List (List Char)) : List (List Char) :=
  if ls.getLast? = some [] then ls.dropLast else ls

/-- The raw description text (`desc_text`) extracted from one language block by
`export_metadata.py`: if a `Promotional Text:` marker line exists, the joined
lines after the whitespace run following it; otherwise the whole block. -/
def descText (content : List Char) : List Char :=
  match descAfterMarker (splitNl content) with
  | some rest => List.intercalate ['\n'] (dropLastEmpty rest)
  | none => content

/-- The normalized `description.txt` contents for one block. -/
def exportDescription (content : List Char) : List Char :=
  clean_desc (descText content)

/-- The five fixed file names written into each locale directory. -/
def fiveFiles : List String :=
  ["name.txt", "subtitle.txt", "keywords.txt", "promotional_text.txt", "description.txt"]

/-- The `(language, block)` pairs of one run, as produced by splitting the
source text on `== <Language> ==` header lines — the `pairs` variable of
`export_metadata.py`. -/
abbrev Blocks := List (String × List Char)

/-- The locale codes of the recognized blocks, in block order (unrecognized
language names are skipped, as in the export loop). -/
def recognizedLocales (pairs : Blocks) : List String :=
  pairs.filterMap (fun p => alook p.1 LOCALES)

/-- Every `(locale directory, file name)` write performed by the export loop:
each recognized block writes the five fixed files into its locale directory. -/
def exportWrites (pairs : Blocks) : List (String × String) :=
  (recognizedLocales pairs).flatMap (fun loc => fiveFiles.map (fun f => (loc, f)))

/-- Keep the first occurrence of each element, dropping elements already seen
(the `seen` argument) — the set of distinct values in first-appearance order. -/
def firstDedupAux {α : Type} [DecidableEq α] (seen : List α) : List α → List α
  | [] => []
  | x :: xs =>
    if x ∈ seen then firstDedupAux seen xs
    else x :: firstDedupAux (seen ++ [x]) xs

/-- Distinct elements of a list in first-appearance order. -/
def firstDedup {α : Type} [DecidableEq α] (l : List α) : List α :=
  firstDedupAux [] l

/-- The distinct locale directories created by the export loop
(`target.mkdir(exist_ok=True)` makes repeated creation idempotent). -/
def dirsCreated (pairs : Blocks) : List String :=
  firstDedup ((exportWrites pairs).map (·.1))

/-- The distinct file names present in one locale directory after the run. -/
def filesInDir (pairs : Blocks) (d : String) : List String :=
  firstDedup (((exportWrites pairs).filter (fun w => w.1 = d)).map (·.2))

end ExportMetadata

namespace Xcstrings

open ChessDuo

open ExportMetadata (alook firstDedup firstDedupAux)

/-- Python `str.replace` specialised to a two-character pattern: replace every
non-overlapping occurrence, scanning left to right. -/
def replace2 (p₁ p₂ : Char) (repl : List Char) : List Char → List Char
  | [] => []
  | [c] => [c]
  | c₁ :: c₂ :: cs =>
    if c₁ = p₁ ∧ c₂ = p₂ then repl ++ replace2 p₁ p₂ repl cs
    else c₁ :: replace2 p₁ p₂ repl (c₂ :: cs)

/-- The `unescape` helper of `parse_strings_file`: four chained `str.replace`
calls, in source order `\"`→`"`, `\n`→newline, backslash-newline→newline,
`\\`→`\`. -/
def unescape (s : List Char) : List Char :=
  replace2 '\\' '\\' ['\\']
    (replace2 '\\' '\n' ['\n']
      (replace2 '\\' 'n' ['\n']
        (replace2 '\\' '"' ['"'] s)))

/-- Parse the quoted-group body `(?:\\.|[^"\\])*` up to and including the
closing quote, returning the raw group text and the rest of the line.  On a
backslash the regex must take the `\\.` branch (two characters); on a plain
quote the group must end; otherwise a single character is consumed — so the
regex group is deterministic and needs no backtracking. -/
def qunits : List Char → Option (List Char × List Char)
  | [] => none
  | c :: cs =>
    if c = '"' then some ([], cs)
    else if c = '\\' then
      match cs with
      | [] => none
      | c₂ :: cs₂ => (qunits cs₂).map (fun p => (c :: c₂ :: p.1, p.2))
    else (qunits cs).map (fun p => (c :: p.1, p.2))

/-- Expect one specific character at the head of the input. -/
def expectChar (c : Char) : List Char → Option (List Char)
  | [] => none
  | x :: xs => if x = c then some xs else none

/-- Matcher for `STRING_LINE_RE`, i.e.
`\s*"(key)"\s*=\s*"(value)"\s*;\s*(?://.*)?$` applied with `re.match` to one
stripped line (which can contain no newline, so `.` matches every remaining
character): optional whitespace, a nonempty quoted key, `=`, a possibly empty
quoted value, `;`, then optionally a `//` comment running to the end.
Returns the raw (still escaped) key and value groups. -/
def matchStringLine (s : List Char) : Option (List Char × List Char) :=
  (expectChar '"' (s.dropWhile isPyWs)).bind fun r₁ =>
  (qunits r₁).bind fun kr =>
  if kr.1.isEmpty then none else
  (expectChar '=' (kr.2.dropWhile isPyWs)).bind fun r₃ =>
  (expectChar '"' (r₃.dropWhile isPyWs)).bind fun r₄ =>
  (qunits r₄).bind fun vr =>
  (expectChar ';' (vr.2.dropWhile isPyWs)).bind fun r₆ =>
  let r₇ := r₆.dropWhile isPyWs
  if r₇.isEmpty || ['/', '/'].isPrefixOf r₇ then some (kr.1, vr.1) else none

/-- Matcher for `COMMENT_RE` (`^\s*/\*.*\*/\s*$`) on an already stripped line:
the line starts with `/*`, ends with `*/`, and the two delimiters do not
overlap. -/
def commentLine (s : List Char) : Bool :=
  ['/', '*'].isPrefixOf s && ['*', '/'].isSuffixOf s && 4 ≤ s.length

/-- A line `parse_strings_file` skips silently: blank after stripping, a `//`
line comment, or a single-line block comment. -/
def skipLine (s : List Char) : Bool :=
  s.isEmpty || ['/', '/'].isPrefixOf s || commentLine s

/-- Keys and values are (unescaped) character strings. -/
abbrev K := List Char

/-- A parsed catalog: Python's insertion-ordered `dict` as an association
list. -/
abbrev Cat := List (K × K)

/-- Python `dict` assignment `d[k] = v`: overwrite in place (keeping the
position of the first insertion of `k`), or append a new binding. -/
def dictInsert (d : Cat) (k v : K) : Cat :=
  match d with
  | [] => [(k, v)]
  | (k', v') :: rest =>
    if k' = k then (k', v) :: rest else (k', v') :: dictInsert rest k v

/-- Diagnostics written to stderr by `parse_strings_file`. -/
inductive Warn : Type
  | unparsed (lineno : Nat)
  | dup (key : K)
deriving DecidableEq

/-- The parsing loop of `parse_strings_file`, over the file's lines: strip the
line; skip blank/comment lines; warn and skip lines the entry regex rejects;
otherwise unescape key and value, warn if the key is already present
(duplicate), and store with last-write-wins `dict` assignment. -/
def parseLoop : List (List Char) → Nat → Cat × List Warn → Cat × List Warn
  | [], _, st => st
  | l :: ls, n, (d, w) =>
    let s := pyStrip l
    if skipLine s then parseLoop ls (n + 1) (d, w)
    else
      match matchStringLine s with
      | none => parseLoop ls (n + 1) (d, w ++ [Warn.unparsed n])
      | some p =>
        let k := unescape p.1
        let v := unescape p.2
        let w' := if d.any (fun e => e.1 = k) then w ++ [Warn.dup k] else w
        parseLoop ls (n + 1) (dictInsert d k v, w')

/-- Parse one file's whole text: `parse_strings_file` after the
`os.path.isfile` test succeeded. -/
def parseContent (content : List Char) : Cat × List Warn :=
  parseLoop (splitNl content) 1 ([], [])

/-- The file system visible to the consolidator: the immediate entries of the
project directory, and the set of existing files with their contents.  A path
exists exactly when it carries a content. -/
structure FS : Type where
  entries : List String
  files : List (String × List Char)

/-- Python `os.path.isfile` / `os.path.exists` in this model. -/
def FS.isFile (fs : FS) (p : String) : Bool :=
  (fs.files.find? (fun q => q.1 = p)).isSome

/-- Function `parse_strings_file`: an absent file parses to an empty mapping with no
warnings and no error; otherwise the file's lines are parsed. -/
def parse_strings_file (fs : FS) (path : String) : Cat × List Warn :=
  match alook path fs.files with
  | none => ([], [])
  | some content => parseContent content

/-- Strict lexicographic comparison of character lists by code point, the
order Python uses to compare strings. -/
def lexLt : List Char → List Char → Bool
  | [], [] => false
  | [], _ :: _ => true
  | _ :: _, [] => false
  | a :: as, b :: bs =>
    if a < b then true
    else if b < a then false
    else lexLt as bs

/-- Reflexive lexicographic order on character lists. -/
def lexLe (a b : List Char) : Bool := !lexLt b a

/-- Stable insertion into a sorted list, by `lexLe` on the strings' characters. -/
def insertLe (x : String) : List String → List String
  | [] => [x]
  | y :: ys => if lexLe x.data y.data then x :: y :: ys else y :: insertLe x ys

/-- Python `sorted` on strings: the (unique) stable ascending sort, here as an
insertion sort. -/
def sortStr : List String → List String
  | [] => []
  | x :: xs => insertLe x (sortStr xs)

/-- Python `os.path.join` for the relative path segments used by the script. -/
def pathJoin (a b : String) : String := a ++ "/" ++ b

/-- Python `entry.endswith(suffix)`. -/
def pyEndsWith (s suffix : String) : Bool := suffix.data.isSuffixOf s.data

/-- Python `entry[:-6]`, dropping the `.lproj` suffix. -/
def dropLproj (s : String) : String := ⟨s.data.take (s.data.length - 6)⟩

/-- The `<basename>.strings` path inside one `.lproj` folder. -/
def stringsPath (projectDir entry basename : String) : String :=
  pathJoin projectDir (pathJoin entry (basename ++ ".strings"))

/-- Function `discover_locales`: walk the sorted directory entries, keep those ending in
`.lproj` whose folder contains `<basename>.strings`, and pair the entry minus
its suffix (the locale code) with that path. -/
def discover_locales (fs : FS) (projectDir basename : String) :
    List (String × String) :=
  (sortStr fs.entries).filterMap (fun entry =>
    if pyEndsWith entry ".lproj" then
      let p := stringsPath projectDir entry basename
      if fs.isFile p then some (dropLproj entry, p) else none
    else none)

/-- Append each key not yet present to the accumulator — the inner
`for k in kv.keys(): if k not in ordered_keys: ordered_keys.append(k)` loop of
`build_xcstring`, folded over a list of keys. -/
def addNew (acc : List K) (ks : List K) : List K :=
  ks.foldl (fun a k => if k ∈ a then a else a ++ [k]) acc

/-- The ordered key list built by `build_xcstring`: the source-language
catalog's keys (if that locale was parsed), then every new key of the other
locales in iteration order. -/
def buildOrderedKeys (ld : List (String × Cat)) (src : String) : List K :=
  let srcKeys := match alook src ld with
    | some cat => cat.map (·.1)
    | none => []
  addNew srcKeys ((ld.filter (fun p => p.1 ≠ src)).flatMap (fun p => p.2.map (·.1)))

/-- One `stringUnit` object: the fixed translation-state marker and the literal
value. -/
structure StrUnit : Type where
  state : String
  value : K
deriving DecidableEq

/-- One entry of the `strings` object: the fixed extraction-state marker and
the per-locale string units. -/
structure XCEntry : Type where
  extractionState : String
  localizations : List (String × StrUnit)
deriving DecidableEq

/-- The consolidated catalog (the root object of the `.xcstrings` JSON). -/
structure XCRoot : Type where
  sourceLanguage : String
  version : String
  strings : List (K × XCEntry)
deriving DecidableEq

/-- The per-key entry built by `build_xcstring`: a `"translated"` string unit
for exactly those locales whose catalog has the key. -/
def buildEntry (ld : List (String × Cat)) (k : K) : XCEntry :=
  ⟨"manual", ld.filterMap (fun p => (alook k p.2).map (fun v => (p.1, ⟨"translated", v⟩)))⟩

/-- Function `build_xcstring`: the ordered `strings` mapping under the declared source
language and version. -/
def build_xcstring (ld : List (String × Cat)) (src version : String) : XCRoot :=
  ⟨src, version, (buildOrderedKeys ld src).map (fun k => (k, buildEntry ld k))⟩

/-- The localizations recorded for key `k` in a built catalog (empty when the
key is absent). -/
def localizationsOf (root : XCRoot) (k : K) : List (String × StrUnit) :=
  match root.strings.find? (fun p => p.1 = k) with
  | some p => p.2.localizations
  | none => []

/-- Function `rename_originals`: for each discovered locale compute the backup path; a
pre-existing backup is skipped under `--keep-backups` and otherwise raises
`FileExistsError` (also in dry-run mode); renames are performed only when not
in dry-run mode.  Returns the performed renames. -/
def renameOriginals (fs : FS) (ext : String) (dryRun skipIfExists : Bool) :
    List (String × String) → Except String (List (String × String))
  | [] => .ok []
  | (_, p) :: rest =>
    let backup := p ++ ext
    if fs.isFile backup then
      if skipIfExists then renameOriginals fs ext dryRun skipIfExists rest
      else .error ("Backup already exists: " ++ backup)
    else
      (renameOriginals fs ext dryRun skipIfExists rest).map
        (fun rs => if dryRun then rs else (p, backup) :: rs)

/-- The command-line arguments of the consolidator that affect behaviour. -/
structure Args : Type where
  projectDir : String := "ChessDuo"
  basename : String := "Localizable"
  output : Option String := none
  sourceLanguage : String := "en"
  version : String := "1.0"
  backupExtension : String := ".bak"
  dryRun : Bool := false
  noBackup : Bool := false
  keepBackups : Bool := false

/-- The observable outcome of a successful run: exit code, output files
written, renames performed. -/
structure MainResult : Type where
  exitCode : Nat
  written : List String
  renamed : List (String × String)
deriving DecidableEq

/-- Function `main` of the consolidator: discover locales (exit code 1 when none),
parse every discovered file, build the consolidated catalog, write the output
unless in dry-run mode, then — unless `--no-backup` — archive the originals,
letting a `FileExistsError` from `rename_originals` escape as a fatal error. -/
def mainRun (fs : FS) (a : Args) : Except String MainResult :=
  let output := a.output.getD (pathJoin a.projectDir (a.basename ++ ".xcstrings"))
  let locales := discover_locales fs a.projectDir a.basename
  if locales.isEmpty then .ok ⟨1, [], []⟩
  else
    let localesData := locales.map (fun q => (q.1, (parse_strings_file fs q.2).1))
    let _xc := build_xcstring localesData a.sourceLanguage a.version
    let written := if a.dryRun then [] else [output]
    if a.noBackup then .ok ⟨0, written, []⟩
    else
      match renameOriginals fs a.backupExtension a.dryRun a.keepBackups locales with
      | .error e => .error e
      | .ok rs => .ok ⟨0, written, rs⟩

end Xcstrings

/-- Decidable equality for `Except`, to let run outcomes be checked by
evaluation. -/
instance {ε α : Type} [DecidableEq ε] [DecidableEq α] : DecidableEq (Except ε α) := fun x y =>
  match x, y with
  | .ok a, .ok b =>
    if h : a = b then .isTrue (by rw [h]) else .isFalse (fun he => by cases he; exact h rfl)
  | .error a, .error b =>
    if h : a = b then .isTrue (by rw [h]) else .isFalse (fun he => by cases he; exact h rfl)
  | .ok _, .error _ => .isFalse (fun he => by cases he)
  | .error _, .ok _ => .isFalse (fun he => by cases he)

namespace Xcstrings

open ChessDuo

open ExportMetadata (alook firstDedup firstDedupAux)

/-- Spec-side description of the consolidated key order (§3 of the spec): all
keys of the source-language catalog in that catalog's order, followed by the
keys of the other locales that are not source-language keys, in first-seen
discovery order. -/
def specOrderedKeys (ld : List (String × Cat)) (src : String) : List K :=
  let srcKeys := match alook src ld with
    | some cat => cat.map (·.1)
    | none => []
  srcKeys ++ firstDedupAux srcKeys ((ld.filter (fun p => p.1 ≠ src)).flatMap (fun p => p.2.map (·.1)))

/-- The `(key, value)` pair one line contributes to the parsed catalog, if any:
skipped and unparsable lines contribute nothing; a matching entry line
contributes its unescaped key and value. -/
def lineEntry (l : List Char) : Option (K × K) :=
  let s := pyStrip l
  if skipLine s then none
  else (matchStringLine s).map (fun p => (unescape p.1, unescape p.2))

/-- All entries contributed by a file's lines, in file order. -/
def entriesOfLines (ls : List (List Char)) : List (K × K) :=
  ls.filterMap lineEntry

/-- The valid entry lines of a file carrying the key `k`, in file order. -/
def entriesFor (content : List Char) (k : K) : List (K × K) :=
  (entriesOfLines (splitNl content)).filter (fun e => e.1 = k)

/-- Tokens describing a raw quoted-group text as a sequence of escape
sequences and plain characters, used to state what the escape table does.  A
plain character is anything but a backslash. -/
inductive ETok : Type
  | plain (c : Char)
  | escQuote
  | escN
  | escNewline
deriving DecidableEq

/-- The raw source characters of one token. -/
def ETok.render : ETok → List Char
  | .plain c => [c]
  | .escQuote => ['\\', '"']
  | .escN => ['\\', 'n']
  | .escNewline => ['\\', '\n']

/-- What the spec's escape table says one token unescapes to. -/
def ETok.decode : ETok → List Char
  | .plain c => [c]
  | .escQuote => ['"']
  | .escN => ['\n']
  | .escNewline => ['\n']

/-- A token whose rendering introduces no backslash except as the head of its
own escape sequence. -/
def ETok.wf : ETok → Prop
  | .plain c => c ≠ '\\'
  | _ => True

instance : DecidablePred ETok.wf := fun t => by
  cases t <;> simp [ETok.wf] <;> infer_instance

/-- The raw text denoted by a token sequence. -/
def renderToks (ts : List ETok) : List Char := ts.flatMap ETok.render

/-- The table-decoded text of a token sequence. -/
def decodeToks (ts : List ETok) : List Char := ts.flatMap ETok.decode

end Xcstrings


namespace Xcstrings

/-- Intermediate rendering after the first replacement (`\"` → `"`). -/
def renderQ : ETok → List Char
  | .plain c => [c]
  | .escQuote => ['"']
  | .escN => ['\\', 'n']
  | .escNewline => ['\\', '\n']

/-- Intermediate rendering after the second replacement (`\n` → newline). -/
def renderN : ETok → List Char
  | .plain c => [c]
  | .escQuote => ['"']
  | .escN => ['\n']
  | .escNewline => ['\\', '\n']

end Xcstrings

namespace Xcstrings

open ChessDuo

/-- Number of duplicate-key warnings for the key `k`. -/
def countDup (k : K) (w : List Warn) : Nat :=
  w.countP (fun x => x = Warn.dup k)

/-- The keys contributed by a file's text, in entry-line order (with
repetitions). -/
def entryKeys (content : List Char) : List K :=
  (entriesOfLines (splitNl content)).map (·.1)

end Xcstrings

namespace ExportMetadata

open ChessDuo

/-- The language names of the blocks the exporter recognizes, in block order. -/
def recognizedLangs (pairs : Blocks) : List String :=
  (pairs.filter (fun p => (alook p.1 LOCALES).isSome)).map (·.1)

/-- Spec-side line-level normalization: strip the leading whitespace of every
line, drop the lines that become empty, and join the remainder with single
newlines; then trim and terminate as `clean_desc` does. -/
def specCleanLines (s : List Char) : List (List Char) :=
  ((splitNl s).map (·.dropWhile isPyWs)).filter (fun l => !l.isEmpty)

/-- The normalization `clean_desc` actually performs, phrased line by line:
blank-stripped lines joined after dropping emptied lines, trimmed, with one
trailing newline. -/
def specCleanDesc (s : List Char) : List Char :=
  pyStrip (List.intercalate ['\n'] (specCleanLines s)) ++ ['\n']

end ExportMetadata


open ChessDuo ExportMetadata Xcstrings

/-- C2: the exporter's own comments say the description starts after the
promo-text line (the line immediately following the `Promotional Text:`
marker), but `content[match.end():]` starts with the newline that ends the
marker line, so `splitlines()[1:]` only removes the empty artifact line and
the promo-text line stays in the description.  On the block
`Name: ChessDuo` / `Promotional Text:` / `Play together!` /
`A long description.` the code produces a description beginning with the
promo line, not the claimed `A long description.`. -/
theorem C2_description_keeps_promo_line :
    descText ("Name: ChessDuo\nPromotional Text:\nPlay together!\nA long description.".data)
        = ("Play together!\nA long description.").data
      ∧ exportDescription
            ("Name: ChessDuo\nPromotional Text:\nPlay together!\nA long description.".data)
          = ("Play together!\nA long description.\n").data
      ∧ ("Play together!\nA long description.\n").data ≠ ("A long description.\n").data := by
  refine ⟨by decide, by decide, by decide⟩

/-- C4 counterexample: the three characters backslash, backslash, `n` do not
unescape to backslash followed by `n`; the second `str.replace` call finds the
two-character pattern backslash-`n` inside them and the chain collapses the
whole sequence to a single newline. -/
theorem C4_counterexample :
    unescape ['\\', '\\', 'n'] = ['\n'] ∧ unescape ['\\', '\\', 'n'] ≠ ['\\', 'n'] := by
  refine ⟨by decide, by decide⟩

/-- C5 counterexample: `discover_locales` sorts the *directory entry names*
(`<locale>.lproj`), not the locale codes.  Since the character `-` precedes
`.`, the entry `zh-Hans.lproj` sorts before `zh.lproj`, so the locale `zh-Hans`
precedes `zh` in the returned list, and the list is not ascending in the
locale codes. -/
theorem C5_counterexample :
    (discover_locales
        ⟨["zh.lproj", "zh-Hans.lproj"],
          [("P/zh.lproj/L.strings", []), ("P/zh-Hans.lproj/L.strings", [])]⟩
        "P" "L").map (·.1) = ["zh-Hans", "zh"]
      ∧ ¬ List.Pairwise (fun a b : String => lexLe a.data b.data = true)
          ((discover_locales
              ⟨["zh.lproj", "zh-Hans.lproj"],
                [("P/zh.lproj/L.strings", []), ("P/zh-Hans.lproj/L.strings", [])]⟩
              "P" "L").map (·.1)) := by
  refine ⟨by decide, by decide⟩

/-- C7 counterexample: a source text with two `German` blocks has two blocks
whose language name is in the locale table, yet the export loop writes both
into the single directory `de-DE`, so only one locale directory is created,
not two. -/
theorem C7_counterexample :
    (recognizedLocales [("German", "first".data), ("German", "second".data)]).length = 2
      ∧ (dirsCreated [("German", "first".data), ("German", "second".data)]).length = 1 := by
  refine ⟨by decide, by decide⟩

/-- C8 counterexample: `re.sub(r"^\s+", "", desc, flags=re.MULTILINE)` lets a
whitespace run that starts at a line start swallow newlines, so the blank
interior line of `a`/blank/`b` is removed entirely and the lines merge —
the claimed result `a`/blank/`b` with the blank preserved is not produced. -/
theorem C8_counterexample :
    clean_desc ("a\n\nb".data) = ("a\nb\n").data
      ∧ clean_desc ("a\n\nb".data) ≠ ("a\n\nb\n").data := by
  refine ⟨by decide, by decide⟩

/-- C3 counterexample: with one discovered locale whose backup path already
exists and neither `--no-backup` nor `--keep-backups` given, the run does not
exit with status 0: `rename_originals` raises `FileExistsError` and the run
aborts with an error. -/
theorem C3_counterexample :
    mainRun
        ⟨["en.lproj"],
          [("ChessDuo/en.lproj/Localizable.strings", "\"a\" = \"b\";".data),
            ("ChessDuo/en.lproj/Localizable.strings.bak", [])]⟩
        {}
      = .error "Backup already exists: ChessDuo/en.lproj/Localizable.strings.bak" := by
  decide

/-- C10: `parse_strings_file` on a path that is not an existing file returns
the empty mapping with no diagnostics and raises no error, so a discovered
locale whose file has disappeared by parse time contributes no keys. -/
theorem C10_parse_missing_file_empty (fs : FS) (path : String)
    (h : alook path fs.files = none) :
    parse_strings_file fs path = ([], []) := by
  simp [parse_strings_file, h]

/-- C10 witness: a concrete file system without the requested path. -/
theorem C10_witness :
    alook "ChessDuo/fr.lproj/Localizable.strings" (FS.files ⟨["fr.lproj"], []⟩) = none
      ∧ parse_strings_file ⟨["fr.lproj"], []⟩ "ChessDuo/fr.lproj/Localizable.strings" = ([], []) :=
  ⟨by decide, C10_parse_missing_file_empty ⟨["fr.lproj"], []⟩
    "ChessDuo/fr.lproj/Localizable.strings" (by decide)⟩


/-- A replacement skips a head character that cannot start the pattern. -/
theorem replace2_cons_of_ne {p₁ p₂ c : Char} {r s : List Char} (h : c ≠ p₁) :
    replace2 p₁ p₂ r (c :: s) = c :: replace2 p₁ p₂ r s := by
  cases s <;> simp [replace2, h]

/-- A replacement skips the head when the second character breaks the pattern. -/
theorem replace2_cons_of_ne₂ {p₁ p₂ c₁ c₂ : Char} {r cs : List Char} (h : c₂ ≠ p₂) :
    replace2 p₁ p₂ r (c₁ :: c₂ :: cs) = c₁ :: replace2 p₁ p₂ r (c₂ :: cs) := by
  simp [replace2, h]

/-- A replacement fires on an occurrence of the pattern at the head. -/
theorem replace2_cons_hit {p₁ p₂ : Char} {r cs : List Char} :
    replace2 p₁ p₂ r (p₁ :: p₂ :: cs) = r ++ replace2 p₁ p₂ r cs := by
  simp [replace2]

/-- A replacement whose first pattern character never occurs is the identity. -/
theorem replace2_of_not_mem {p₁ p₂ : Char} {r s : List Char} (h : ∀ c ∈ s, c ≠ p₁) :
    replace2 p₁ p₂ r s = s := by
  induction s with
  | nil => rfl
  | cons c cs ih =>
    rw [replace2_cons_of_ne (h c (List.mem_cons_self c cs))]
    exact congrArg (c :: ·) (ih (fun x hx => h x (List.mem_cons_of_mem c hx)))

/-- Stage one of `unescape` rewrites each rendered token to its `renderQ`
form. -/
theorem unescape_stage₁ (ts : List ETok) (hwf : ∀ t ∈ ts, t.wf) :
    replace2 '\\' '"' ['"'] (renderToks ts) = ts.flatMap renderQ := by
  induction ts with
  | nil => rfl
  | cons t ts ih =>
    have hts : ∀ t ∈ ts, t.wf := fun x hx => hwf x (List.mem_cons_of_mem t hx)
    have hwt := hwf t (List.mem_cons_self t ts)
    rw [renderToks, List.flatMap_cons, List.flatMap_cons]
    cases t with
    | plain c =>
      have hc : c ≠ '\\' := hwt
      simpa [ETok.render, renderQ] using
        (replace2_cons_of_ne hc).trans (congrArg (c :: ·) (ih hts))
    | escQuote =>
      simpa [ETok.render, renderQ] using
        replace2_cons_hit.trans (congrArg (['"'] ++ ·) (ih hts))
    | escN =>
      have h₁ : ('n' : Char) ≠ '"' := by decide
      have h₂ : ('n' : Char) ≠ '\\' := by decide
      simpa [ETok.render, renderQ] using
        (replace2_cons_of_ne₂ h₁).trans (congrArg ('\\' :: ·)
          ((replace2_cons_of_ne h₂).trans (congrArg ('n' :: ·) (ih hts))))
    | escNewline =>
      have h₁ : ('\n' : Char) ≠ '"' := by decide
      have h₂ : ('\n' : Char) ≠ '\\' := by decide
      simpa [ETok.render, renderQ] using
        (replace2_cons_of_ne₂ h₁).trans (congrArg ('\\' :: ·)
          ((replace2_cons_of_ne h₂).trans (congrArg ('\n' :: ·) (ih hts))))

/-- Stage two of `unescape` rewrites each `renderQ` form to its `renderN`
form. -/
theorem unescape_stage₂ (ts : List ETok) (hwf : ∀ t ∈ ts, t.wf) :
    replace2 '\\' 'n' ['\n'] (ts.flatMap renderQ) = ts.flatMap renderN := by
  induction ts with
  | nil => rfl
  | cons t ts ih =>
    have hts : ∀ t ∈ ts, t.wf := fun x hx => hwf x (List.mem_cons_of_mem t hx)
    have hwt := hwf t (List.mem_cons_self t ts)
    rw [List.flatMap_cons, List.flatMap_cons]
    cases t with
    | plain c =>
      have hc : c ≠ '\\' := hwt
      simpa [renderQ, renderN] using
        (replace2_cons_of_ne hc).trans (congrArg (c :: ·) (ih hts))
    | escQuote =>
      have h : ('"' : Char) ≠ '\\' := by decide
      simpa [renderQ, renderN] using
        (replace2_cons_of_ne h).trans (congrArg ('"' :: ·) (ih hts))
    | escN =>
      simpa [renderQ, renderN] using
        replace2_cons_hit.trans (congrArg (['\n'] ++ ·) (ih hts))
    | escNewline =>
      have h₁ : ('\n' : Char) ≠ 'n' := by decide
      have h₂ : ('\n' : Char) ≠ '\\' := by decide
      simpa [renderQ, renderN] using
        (replace2_cons_of_ne₂ h₁).trans (congrArg ('\\' :: ·)
          ((replace2_cons_of_ne h₂).trans (congrArg ('\n' :: ·) (ih hts))))

/-- Stage three of `unescape` rewrites each `renderN` form to its decoded
form. -/
theorem unescape_stage₃ (ts : List ETok) (hwf : ∀ t ∈ ts, t.wf) :
    replace2 '\\' '\n' ['\n'] (ts.flatMap renderN) = decodeToks ts := by
  induction ts with
  | nil => rfl
  | cons t ts ih =>
    have hts : ∀ t ∈ ts, t.wf := fun x hx => hwf x (List.mem_cons_of_mem t hx)
    have hwt := hwf t (List.mem_cons_self t ts)
    rw [List.flatMap_cons, decodeToks, List.flatMap_cons]
    cases t with
    | plain c =>
      have hc : c ≠ '\\' := hwt
      simpa [renderN, ETok.decode, decodeToks] using
        (replace2_cons_of_ne hc).trans (congrArg (c :: ·) (ih hts))
    | escQuote =>
      have h : ('"' : Char) ≠ '\\' := by decide
      simpa [renderN, ETok.decode, decodeToks] using
        (replace2_cons_of_ne h).trans (congrArg ('"' :: ·) (ih hts))
    | escN =>
      have h : ('\n' : Char) ≠ '\\' := by decide
      simpa [renderN, ETok.decode, decodeToks] using
        (replace2_cons_of_ne h).trans (congrArg ('\n' :: ·) (ih hts))
    | escNewline =>
      simpa [renderN, ETok.decode, decodeToks] using
        replace2_cons_hit.trans (congrArg (['\n'] ++ ·) (ih hts))

/-- No decoded token contains a backslash when the sequence is well formed. -/
theorem decodeToks_no_backslash (ts : List ETok) (hwf : ∀ t ∈ ts, t.wf) :
    ∀ c ∈ decodeToks ts, c ≠ '\\' := by
  intro c hc
  rw [decodeToks, List.mem_flatMap] at hc
  obtain ⟨t, ht, hct⟩ := hc
  have hwt := hwf t ht
  cases t with
  | plain a =>
    have : c = a := by simpa [ETok.decode] using hct
    exact this ▸ hwt
  | escQuote =>
    have : c = '"' := by simpa [ETok.decode] using hct
    simp [this]
  | escN =>
    have : c = '\n' := by simpa [ETok.decode] using hct
    simp [this]
  | escNewline =>
    have : c = '\n' := by simpa [ETok.decode] using hct
    simp [this]

/-- C4 (amended): on raw text with no consecutive backslashes — a sequence of
plain non-backslash characters and the escapes `\"`, `\n`, backslash-newline —
`unescape` realises the fixed table `\"` → `"`, `\n` → newline,
backslash-newline → newline; an isolated `\\` unescapes to a single backslash;
and the three-character sequence backslash-backslash-`n` unescapes to a single
newline (not to backslash and `n`), because the four replacements run
sequentially and the `\n` replacement matches inside it. -/
theorem C4_unescape_table (ts : List ETok) (hwf : ∀ t ∈ ts, t.wf) :
    unescape (renderToks ts) = decodeToks ts
      ∧ unescape ['\\', '\\'] = ['\\']
      ∧ unescape ['\\', '\\', 'n'] = ['\n'] := by
  refine ⟨?_, by decide, by decide⟩
  rw [unescape, unescape_stage₁ ts hwf, unescape_stage₂ ts hwf, unescape_stage₃ ts hwf]
  exact replace2_of_not_mem (decodeToks_no_backslash ts hwf)

/-- C4 witness: the table applied to a concrete raw text `a\"b\n` followed by
an escaped line break. -/
theorem C4_witness :
    (∀ t ∈ [ETok.plain 'a', ETok.escQuote, ETok.plain 'b', ETok.escN, ETok.escNewline],
        ETok.wf t)
      ∧ unescape (renderToks
          [ETok.plain 'a', ETok.escQuote, ETok.plain 'b', ETok.escN, ETok.escNewline])
        = decodeToks
            [ETok.plain 'a', ETok.escQuote, ETok.plain 'b', ETok.escN, ETok.escNewline] :=
  ⟨by decide,
    (C4_unescape_table
      [ETok.plain 'a', ETok.escQuote, ETok.plain 'b', ETok.escN, ETok.escNewline]
      (by decide)).1⟩

/-- Looking up the key just inserted finds the new value. -/
theorem alook_dictInsert_self (d : Cat) (k v : K) :
    alook k (dictInsert d k v) = some v := by
  induction d with
  | nil => simp [dictInsert, alook]
  | cons e rest ih =>
    by_cases h : e.1 = k
    · simp [dictInsert, h, alook]
    · rw [dictInsert, if_neg h, alook, List.find?_cons_of_neg _ (by simpa using h)]
      exact ih

/-- Inserting one key leaves other keys' lookups unchanged. -/
theorem alook_dictInsert_ne (d : Cat) (k k' v : K) (h : k' ≠ k) :
    alook k' (dictInsert d k v) = alook k' d := by
  induction d with
  | nil =>
    rw [dictInsert, alook, List.find?_cons_of_neg _ (by simpa using fun he : k = k' => h he.symm)]
    rfl
  | cons e rest ih =>
    by_cases he : e.1 = k
    · have h₁ : ¬ e.1 = k' := fun hk => h (hk ▸ he ▸ rfl)
      rw [dictInsert, if_pos he, alook, alook,
        List.find?_cons_of_neg _ (by simpa using h₁),
        List.find?_cons_of_neg _ (by simpa using h₁)]
    · by_cases he' : e.1 = k'
      · rw [dictInsert, if_neg he, alook, alook,
          List.find?_cons_of_pos _ (by simpa using he'),
          List.find?_cons_of_pos _ (by simpa using he')]
      · rw [dictInsert, if_neg he, alook, alook,
          List.find?_cons_of_neg _ (by simpa using he'),
          List.find?_cons_of_neg _ (by simpa using he')]
        exact ih

/-- Membership of a key after an insertion. -/
theorem any_dictInsert (d : Cat) (k k' v : K) :
    (dictInsert d k v).any (fun e => e.1 = k')
      = (d.any (fun e => e.1 = k') || decide (k = k')) := by
  induction d with
  | nil => simp [dictInsert]
  | cons e rest ih =>
    by_cases he : e.1 = k
    · rw [dictInsert, if_pos he, List.any_cons, List.any_cons]
      subst he
      by_cases he' : e.1 = k' <;> simp [he']
    · rw [dictInsert, if_neg he, List.any_cons, List.any_cons, ih, Bool.or_assoc]

/-- The warning list of `parseLoop` factors through its accumulator. -/
theorem parseLoop_shift (ls : List (List Char)) (n : Nat) (d : Cat) (w : List Warn) :
    parseLoop ls n (d, w)
      = ((parseLoop ls n (d, [])).1, w ++ (parseLoop ls n (d, [])).2) := by
  induction ls generalizing n d w with
  | nil => simp [parseLoop]
  | cons l ls ih =>
    by_cases hs : skipLine (pyStrip l)
    · simp only [parseLoop, hs, if_true]
      exact ih (n + 1) d w
    · simp only [parseLoop, hs, Bool.false_eq_true, if_false]
      cases hm : matchStringLine (pyStrip l) with
      | none =>
        dsimp only
        rw [ih (n + 1) d (w ++ [Warn.unparsed n]), ih (n + 1) d ([] ++ [Warn.unparsed n])]
        simp
      | some p =>
        dsimp only
        by_cases hd : d.any (fun e => e.1 = unescape p.1) = true
        · rw [if_pos hd, if_pos hd,
            ih (n + 1) (dictInsert d (unescape p.1) (unescape p.2)) (w ++ [Warn.dup (unescape p.1)]),
            ih (n + 1) (dictInsert d (unescape p.1) (unescape p.2)) ([] ++ [Warn.dup (unescape p.1)])]
          simp
        · rw [if_neg hd, if_neg hd,
            ih (n + 1) (dictInsert d (unescape p.1) (unescape p.2)) w,
            ih (n + 1) (dictInsert d (unescape p.1) (unescape p.2)) ([] : List Warn)]

/-- The parsed dictionary does not depend on the warning accumulator. -/
theorem parseLoop_fst_acc (ls : List (List Char)) (n : Nat) (d : Cat) (w : List Warn) :
    (parseLoop ls n (d, w)).1 = (parseLoop ls n (d, [])).1 := by
  rw [parseLoop_shift]

/-- The last element of a nonempty list, via `Option.or`. -/
theorem getLast?_cons_or {α : Type} (x : α) (xs : List α) :
    (x :: xs).getLast? = xs.getLast?.or (some x) := by
  cases xs with
  | nil => rfl
  | cons y ys =>
    rw [List.getLast?_cons_cons]
    cases h : (y :: ys).getLast? with
    | none => simp at h
    | some z => rfl

/-- Mapping distributes: `Option.map` distributes over `Option.or`. -/
theorem optOr_map {α β : Type} (f : α → β) (a b : Option α) :
    (a.or b).map f = (a.map f).or (b.map f) := by
  cases a <;> rfl

/-- Operation `Option.or` is associative. -/
theorem optOr_assoc {α : Type} (a b c : Option α) :
    (a.or b).or c = a.or (b.or c) := by
  cases a <;> rfl

/-- Value `none` is a right identity for `Option.or`. -/
theorem optOr_none {α : Type} (a : Option α) : a.or none = a := by
  cases a <;> rfl

/-- A line contributing no entry adds nothing to the entry list. -/
theorem entriesOfLines_cons_none {l : List Char} (ls : List (List Char))
    (h : lineEntry l = none) : entriesOfLines (l :: ls) = entriesOfLines ls := by
  simp [entriesOfLines, List.filterMap_cons, h]

/-- An entry line prepends its entry to the entry list. -/
theorem entriesOfLines_cons_some {l : List Char} {e : K × K} (ls : List (List Char))
    (h : lineEntry l = some e) : entriesOfLines (l :: ls) = e :: entriesOfLines ls := by
  simp [entriesOfLines, List.filterMap_cons, h]

/-- The parsed dictionary maps each key to the value of its last entry line,
falling back to the initial dictionary. -/
theorem parseLoop_alook (k : K) (ls : List (List Char)) (n : Nat) (d : Cat) :
    alook k (parseLoop ls n (d, [])).1
      = (((entriesOfLines ls).filter (fun e => e.1 = k)).getLast?.map (·.2)).or (alook k d) := by
  induction ls generalizing n d with
  | nil => simp [parseLoop, entriesOfLines]
  | cons l ls ih =>
    by_cases hs : skipLine (pyStrip l)
    · rw [entriesOfLines_cons_none ls (by simp [lineEntry, hs])]
      simp only [parseLoop, hs, if_true]
      exact ih (n + 1) d
    · cases hm : matchStringLine (pyStrip l) with
      | none =>
        rw [entriesOfLines_cons_none ls (by simp [lineEntry, hs, hm])]
        simp only [parseLoop, hs, Bool.false_eq_true, if_false, hm]
        rw [parseLoop_fst_acc]
        exact ih (n + 1) d
      | some p =>
        have hle : lineEntry l = some (unescape p.1, unescape p.2) := by
          simp [lineEntry, hs, hm]
        rw [entriesOfLines_cons_some ls hle]
        simp only [parseLoop, hs, Bool.false_eq_true, if_false, hm]
        rw [parseLoop_fst_acc, ih (n + 1) (dictInsert d (unescape p.1) (unescape p.2))]
        by_cases hk : unescape p.1 = k
        · subst hk
          rw [List.filter_cons_of_pos (by simp), getLast?_cons_or, optOr_map, optOr_assoc,
            alook_dictInsert_self]
          rfl
        · rw [List.filter_cons_of_neg (by simpa using hk),
            alook_dictInsert_ne d (unescape p.1) k (unescape p.2) (fun h => hk h.symm)]

/-- Warning counts of singleton warning lists. -/
theorem countDup_single_dup (k : K) : countDup k [Warn.dup k] = 1 := by
  simp [countDup]

/-- A duplicate warning for another key does not count. -/
theorem countDup_single_dup_ne (k k' : K) (h : k' ≠ k) : countDup k [Warn.dup k'] = 0 := by
  simp [countDup, h]

/-- An unparsed-line warning does not count as a duplicate warning. -/
theorem countDup_single_unparsed (k : K) (n : Nat) : countDup k [Warn.unparsed n] = 0 := by
  simp [countDup]

/-- Function `countDup` is additive. -/
theorem countDup_append (k : K) (w w' : List Warn) :
    countDup k (w ++ w') = countDup k w + countDup k w' := by
  simp [countDup, List.countP_append]

/-- The number of duplicate warnings for `k`: one per entry line carrying `k`,
except that the first such line is free when `k` is not yet in the
dictionary. -/
theorem parseLoop_countDup (k : K) (ls : List (List Char)) (n : Nat) (d : Cat) :
    countDup k (parseLoop ls n (d, [])).2
      = (if d.any (fun e => e.1 = k)
          then ((entriesOfLines ls).filter (fun e => e.1 = k)).length
          else ((entriesOfLines ls).filter (fun e => e.1 = k)).length - 1) := by
  induction ls generalizing n d with
  | nil => simp [parseLoop, entriesOfLines, countDup]
  | cons l ls ih =>
    by_cases hs : skipLine (pyStrip l)
    · rw [entriesOfLines_cons_none ls (by simp [lineEntry, hs])]
      simp only [parseLoop, hs, if_true]
      exact ih (n + 1) d
    · cases hm : matchStringLine (pyStrip l) with
      | none =>
        rw [entriesOfLines_cons_none ls (by simp [lineEntry, hs, hm])]
        simp only [parseLoop, hs, Bool.false_eq_true, if_false, hm]
        rw [parseLoop_shift]
        dsimp only
        rw [List.nil_append, countDup_append, countDup_single_unparsed]
        simpa using ih (n + 1) d
      | some p =>
        have hle : lineEntry l = some (unescape p.1, unescape p.2) := by
          simp [lineEntry, hs, hm]
        rw [entriesOfLines_cons_some ls hle]
        simp only [parseLoop, hs, Bool.false_eq_true, if_false, hm]
        by_cases hk : unescape p.1 = k
        · subst hk
          rw [List.filter_cons_of_pos (by simp)]
          have hd' : (dictInsert d (unescape p.1) (unescape p.2)).any
              (fun e => e.1 = unescape p.1) = true := by
            rw [any_dictInsert]
            simp
          by_cases hd : (d.any (fun e => e.1 = unescape p.1)) = true
          · rw [if_pos hd, if_pos hd, parseLoop_shift]
            dsimp only
            rw [List.nil_append, countDup_append, countDup_single_dup,
              ih (n + 1) (dictInsert d (unescape p.1) (unescape p.2)), if_pos hd']
            simp [Nat.add_comm]
          · rw [if_neg hd, if_neg hd,
              ih (n + 1) (dictInsert d (unescape p.1) (unescape p.2)), if_pos hd']
            simp
        · rw [List.filter_cons_of_neg (by simpa using hk)]
          have hne : (decide (unescape p.1 = k) : Bool) = false := by simpa using hk
          have hd' : (dictInsert d (unescape p.1) (unescape p.2)).any (fun e => e.1 = k)
              = d.any (fun e => e.1 = k) := by
            rw [any_dictInsert, hne, Bool.or_false]
          by_cases hd : (d.any (fun e => e.1 = unescape p.1)) = true
          · rw [if_pos hd, parseLoop_shift]
            dsimp only
            rw [List.nil_append, countDup_append, countDup_single_dup_ne k (unescape p.1) hk,
              ih (n + 1) (dictInsert d (unescape p.1) (unescape p.2)), hd']
            simp
          · rw [if_neg hd, ih (n + 1) (dictInsert d (unescape p.1) (unescape p.2)), hd']

/-- C6: in one locale file, a key appearing on several valid entry lines parses
to the value of its last occurrence (last-write-wins), and one duplicate
warning is emitted per occurrence after the first — for `n` occurrences,
`n - 1` warnings. -/
theorem C6_duplicate_last_write_wins (content : List Char) (k : K) :
    alook k (parseContent content).1 = (entriesFor content k).getLast?.map (·.2)
      ∧ countDup k (parseContent content).2 = (entriesFor content k).length - 1 := by
  constructor
  · rw [parseContent, parseLoop_alook]
    simp [alook, entriesFor, optOr_none]
  · rw [parseContent, parseLoop_countDup]
    simp [entriesFor]

/-- Key list of a dictionary after assignment: unchanged when the key exists,
appended otherwise. -/
theorem dictInsert_keys (d : Cat) (k v : K) :
    (dictInsert d k v).map (·.1)
      = if k ∈ d.map (·.1) then d.map (·.1) else d.map (·.1) ++ [k] := by
  induction d with
  | nil => simp [dictInsert]
  | cons e rest ih =>
    by_cases he : e.1 = k
    · rw [dictInsert, if_pos he, List.map_cons, List.map_cons, if_pos]
      rw [List.mem_cons, he]
      exact Or.inl rfl
    · rw [dictInsert, if_neg he, List.map_cons, List.map_cons, ih]
      by_cases hm : k ∈ rest.map (·.1)
      · rw [if_pos hm, if_pos (List.mem_cons_of_mem _ hm)]
      · rw [if_neg hm, if_neg, List.cons_append]
        rw [List.mem_cons]
        rintro (hk | hk)
        · exact he hk.symm
        · exact hm hk

/-- The key order produced by parsing: existing keys keep their position, new
keys are appended at their first occurrence. -/
theorem parseLoop_keys (ls : List (List Char)) (n : Nat) (d : Cat) :
    (parseLoop ls n (d, [])).1.map (·.1)
      = addNew (d.map (·.1)) ((entriesOfLines ls).map (·.1)) := by
  induction ls generalizing n d with
  | nil => simp [parseLoop, entriesOfLines, addNew]
  | cons l ls ih =>
    by_cases hs : skipLine (pyStrip l)
    · rw [entriesOfLines_cons_none ls (by simp [lineEntry, hs])]
      simp only [parseLoop, hs, if_true]
      exact ih (n + 1) d
    · cases hm : matchStringLine (pyStrip l) with
      | none =>
        rw [entriesOfLines_cons_none ls (by simp [lineEntry, hs, hm])]
        simp only [parseLoop, hs, Bool.false_eq_true, if_false, hm]
        rw [parseLoop_fst_acc]
        exact ih (n + 1) d
      | some p =>
        have hle : lineEntry l = some (unescape p.1, unescape p.2) := by
          simp [lineEntry, hs, hm]
        rw [entriesOfLines_cons_some ls hle]
        simp only [parseLoop, hs, Bool.false_eq_true, if_false, hm]
        rw [parseLoop_fst_acc, ih (n + 1) (dictInsert d (unescape p.1) (unescape p.2)),
          List.map_cons, dictInsert_keys]
        simp only [addNew, List.foldl_cons]

/-- The appending fold equals the accumulator followed by the first-seen
deduplication of the unseen elements. -/
theorem addNew_eq_firstDedupAux (ks : List K) : ∀ acc : List K,
    addNew acc ks = acc ++ firstDedupAux acc ks := by
  induction ks with
  | nil => intro acc; simp [addNew, firstDedupAux]
  | cons k ks ih =>
    intro acc
    have hstep : addNew acc (k :: ks) = addNew (if k ∈ acc then acc else acc ++ [k]) ks := by
      rw [addNew, addNew, List.foldl_cons]
    rw [hstep]
    by_cases hk : k ∈ acc
    · rw [if_pos hk, firstDedupAux, if_pos hk]
      exact ih acc
    · rw [if_neg hk, firstDedupAux, if_neg hk, ih (acc ++ [k])]
      simp

/-- Membership in the first-seen deduplication. -/
theorem mem_firstDedupAux {α : Type} [DecidableEq α] (x : α) (l : List α) :
    ∀ seen : List α, (x ∈ firstDedupAux seen l ↔ x ∈ l ∧ x ∉ seen) := by
  induction l with
  | nil => intro seen; simp [firstDedupAux]
  | cons y ys ih =>
    intro seen
    by_cases hy : y ∈ seen
    · rw [firstDedupAux, if_pos hy, ih seen]
      constructor
      · rintro ⟨h1, h2⟩; exact ⟨List.mem_cons_of_mem _ h1, h2⟩
      · rintro ⟨h1, h2⟩
        rcases List.mem_cons.1 h1 with h | h
        · exact absurd (h ▸ hy) h2
        · exact ⟨h, h2⟩
    · rw [firstDedupAux, if_neg hy, List.mem_cons, ih (seen ++ [y])]
      constructor
      · rintro (h | ⟨h1, h2⟩)
        · exact ⟨h ▸ List.mem_cons_self y ys, h ▸ hy⟩
        · exact ⟨List.mem_cons_of_mem _ h1, fun hx => h2 (List.mem_append_left _ hx)⟩
      · rintro ⟨h1, h2⟩
        rcases List.mem_cons.1 h1 with h | h
        · exact Or.inl h
        · by_cases hxy : x = y
          · exact Or.inl hxy
          · exact Or.inr ⟨h, by simp [hxy, h2]⟩

/-- The code's ordered key list agrees with the spec's description of it. -/
theorem buildOrderedKeys_eq_spec (ld : List (String × Cat)) (src : String) :
    buildOrderedKeys ld src = specOrderedKeys ld src := by
  rw [buildOrderedKeys, specOrderedKeys]
  cases h : alook src ld <;> simp [addNew_eq_firstDedupAux]

/-- The `strings` keys of the built catalog are exactly the ordered key
list. -/
theorem build_strings_keys (ld : List (String × Cat)) (src ver : String) :
    (build_xcstring ld src ver).strings.map (·.1) = specOrderedKeys ld src := by
  rw [build_xcstring, ← buildOrderedKeys_eq_spec]
  dsimp only
  rw [List.map_map]
  exact List.map_id _

/-- Finding a key among pairs built from a key list. -/
theorem find?_key_map (okeys : List K) (F : K → XCEntry) (k : K) :
    (okeys.map (fun j => (j, F j))).find? (fun p => p.1 = k)
      = if k ∈ okeys then some (k, F k) else none := by
  induction okeys with
  | nil => simp
  | cons j js ih =>
    rw [List.map_cons]
    by_cases hj : j = k
    · subst hj
      rw [List.find?_cons_of_pos _ (by simp), if_pos (List.mem_cons_self j js)]
    · rw [List.find?_cons_of_neg _ (by simpa using hj), ih]
      by_cases hm : k ∈ js
      · rw [if_pos hm, if_pos (List.mem_cons_of_mem _ hm)]
      · rw [if_neg hm, if_neg]
        rw [List.mem_cons]
        rintro (h | h)
        · exact hj h.symm
        · exact hm h

/-- The localizations recorded for a key in the built catalog. -/
theorem localizationsOf_build (ld : List (String × Cat)) (src ver : String) (k : K) :
    localizationsOf (build_xcstring ld src ver) k
      = if k ∈ buildOrderedKeys ld src then (buildEntry ld k).localizations else [] := by
  rw [localizationsOf, build_xcstring]
  dsimp only
  rw [find?_key_map]
  by_cases hm : k ∈ buildOrderedKeys ld src
  · rw [if_pos hm, if_pos hm]
  · rw [if_neg hm, if_neg hm]

/-- C1: the built `strings` mapping lists the source-language catalog's keys in
file order first, then the keys appearing only in other locales in first-seen
discovery order; and a `translated` string unit with value `v` is recorded for
`k` under locale `loc` exactly when the key is in the catalog and `loc`'s
parsed catalog maps `k` to the literal value `v` — no entry is synthesized for
a locale lacking the key. -/
theorem C1_build_xcstring_shape (ld : List (String × Cat)) (src ver : String) :
    (build_xcstring ld src ver).strings.map (·.1) = specOrderedKeys ld src
      ∧ ∀ (k : K) (loc : String) (v : K),
          ((loc, ⟨"translated", v⟩) ∈ localizationsOf (build_xcstring ld src ver) k
            ↔ (k ∈ specOrderedKeys ld src ∧ ∃ kv, (loc, kv) ∈ ld ∧ alook k kv = some v)) := by
  refine ⟨build_strings_keys ld src ver, fun k loc v => ?_⟩
  rw [localizationsOf_build, buildOrderedKeys_eq_spec]
  by_cases hm : k ∈ specOrderedKeys ld src
  · rw [if_pos hm]
    simp only [hm, true_and, buildEntry, List.mem_filterMap, Option.map_eq_some']
    constructor
    · rintro ⟨p, hp, v', hv', heq⟩
      have h1 : p.1 = loc := congrArg Prod.fst heq
      have h2 : v' = v := congrArg (fun q => q.2.value) heq
      refine ⟨p.2, ?_, ?_⟩
      · rw [← h1]
        exact hp
      · rw [← h2]
        exact hv'
    · rintro ⟨kv, hkv, hv⟩
      exact ⟨(loc, kv), hkv, v, hv, rfl⟩
  · rw [if_neg hm]
    simp [hm]

/-- An element of the left part keeps its index under appending. -/
theorem indexOf_append_left {α : Type} [BEq α] [LawfulBEq α] (l l' : List α) (a : α)
    (h : a ∈ l) : List.indexOf a (l ++ l') = List.indexOf a l := by
  induction l with
  | nil => cases h
  | cons x xs ih =>
    rw [List.cons_append]
    cases hx : x == a
    · have ha : a ∈ xs := by
        rcases List.mem_cons.1 h with h1 | h1
        · rw [h1] at hx
          simp at hx
        · exact h1
      simp only [List.indexOf, List.findIdx_cons, hx, cond_false]
      have := ih ha
      simp only [List.indexOf] at this
      rw [this]
    · simp only [List.indexOf, List.findIdx_cons, hx, cond_true]

/-- C9: a key duplicated inside the source-language file keeps the position of
its first occurrence — in the consolidated key order its index equals its
index among the distinct entry keys in first-appearance order — while its
parsed value is that of its last occurrence. -/
theorem C9_duplicate_key_position (content : List Char) (others : List (String × Cat))
    (src ver : String) (k : K) (h : k ∈ entryKeys content) :
    List.indexOf k
        ((build_xcstring ((src, (parseContent content).1) :: others) src ver).strings.map (·.1))
      = List.indexOf k (firstDedup (entryKeys content))
      ∧ alook k (parseContent content).1 = (entriesFor content k).getLast?.map (·.2) := by
  constructor
  · rw [build_strings_keys, specOrderedKeys]
    have hsrc : alook src ((src, (parseContent content).1) :: others)
        = some (parseContent content).1 := by
      rw [alook, List.find?_cons_of_pos _ (by simp)]
      rfl
    rw [hsrc]
    dsimp only
    have hkeys : (parseContent content).1.map (·.1) = firstDedup (entryKeys content) := by
      rw [parseContent, parseLoop_keys]
      simp only [List.map_nil, entryKeys, firstDedup]
      exact addNew_eq_firstDedupAux _ []
    rw [hkeys]
    apply indexOf_append_left
    rw [firstDedup]
    exact (mem_firstDedupAux k (entryKeys content) []).2 ⟨h, by simp⟩
  · rw [parseContent, parseLoop_alook]
    simp [alook, entriesFor, optOr_none]

/-- C9 witness: a file where the key `x` appears first, is overwritten later,
and keeps index 0 in the consolidated order while holding its last value. -/
theorem C9_witness :
    ("x".data ∈ entryKeys ("\"x\" = \"a\";\n\"y\" = \"c\";\n\"x\" = \"b\";".data))
      ∧ List.indexOf "x".data
          ((build_xcstring
              (("en", (parseContent ("\"x\" = \"a\";\n\"y\" = \"c\";\n\"x\" = \"b\";".data)).1)
                :: [("de", [("y".data, "j".data)])]) "en" "1.0").strings.map (·.1))
        = List.indexOf "x".data
            (firstDedup (entryKeys ("\"x\" = \"a\";\n\"y\" = \"c\";\n\"x\" = \"b\";".data)))
      ∧ alook "x".data (parseContent ("\"x\" = \"a\";\n\"y\" = \"c\";\n\"x\" = \"b\";".data)).1
        = (entriesFor ("\"x\" = \"a\";\n\"y\" = \"c\";\n\"x\" = \"b\";".data) "x".data).getLast?.map
            (·.2) :=
  ⟨by decide,
    (C9_duplicate_key_position ("\"x\" = \"a\";\n\"y\" = \"c\";\n\"x\" = \"b\";".data)
      [("de", [("y".data, "j".data)])] "en" "1.0" "x".data (by decide)).1,
    (C9_duplicate_key_position ("\"x\" = \"a\";\n\"y\" = \"c\";\n\"x\" = \"b\";".data)
      [("de", [("y".data, "j".data)])] "en" "1.0" "x".data (by decide)).2⟩

/-- Archiving cannot raise when skipping existing backups or when no backup
path exists. -/
theorem renameOriginals_no_error (fs : FS) (ext : String) (dry skip : Bool)
    (locs : List (String × String))
    (h : skip = true ∨ ∀ q ∈ locs, fs.isFile (q.2 ++ ext) = false) :
    ∃ rs, renameOriginals fs ext dry skip locs = .ok rs := by
  induction locs with
  | nil => exact ⟨[], rfl⟩
  | cons q rest ih =>
    have hrest : skip = true ∨ ∀ p ∈ rest, fs.isFile (p.2 ++ ext) = false := by
      rcases h with h | h
      · exact Or.inl h
      · exact Or.inr fun p hp => h p (List.mem_cons_of_mem _ hp)
    obtain ⟨rs, hrs⟩ := ih hrest
    cases hb : fs.isFile (q.2 ++ ext) with
    | true =>
      rcases h with h | h
      · subst h
        exact ⟨rs, by simp [renameOriginals, hb, hrs]⟩
      · exact absurd hb (by simp [h q (List.mem_cons_self q rest)])
    | false =>
      refine ⟨if dry then rs else (q.2, q.2 ++ ext) :: rs, ?_⟩
      simp [renameOriginals, hb, hrs, Except.map]

/-- C3 (amended): the run exits with status 1 and writes nothing when no
locale files are discovered; otherwise it exits with status 0 — provided
archiving is disabled, existing backups are skipped, or no backup path already
exists.  (A pre-existing backup without `--keep-backups` instead aborts the
run with `FileExistsError`.) -/
theorem C3_exit_codes (fs : FS) (a : Args) :
    (discover_locales fs a.projectDir a.basename = [] → mainRun fs a = .ok ⟨1, [], []⟩)
      ∧ (discover_locales fs a.projectDir a.basename ≠ [] →
          (a.noBackup = true ∨ a.keepBackups = true ∨
            ∀ q ∈ discover_locales fs a.projectDir a.basename,
              fs.isFile (q.2 ++ a.backupExtension) = false) →
          ∃ r, mainRun fs a = .ok r ∧ r.exitCode = 0) := by
  constructor
  · intro h
    simp [mainRun, h]
  · intro hne hcond
    rcases hl : discover_locales fs a.projectDir a.basename with _ | ⟨q, qs⟩
    · exact absurd hl hne
    · simp only [mainRun, hl, List.isEmpty_cons, Bool.false_eq_true, if_false]
      cases hnb : a.noBackup with
      | true => exact ⟨_, rfl, rfl⟩
      | false =>
        have hcond' : a.keepBackups = true ∨
            ∀ p ∈ q :: qs, fs.isFile (p.2 ++ a.backupExtension) = false := by
          rcases hcond with h | h | h
          · exact absurd (hnb ▸ h) (by simp)
          · exact Or.inl h
          · exact Or.inr (hl ▸ h)
        obtain ⟨rs, hrs⟩ := renameOriginals_no_error fs a.backupExtension a.dryRun
          a.keepBackups (q :: qs) hcond'
        rw [hrs]
        exact ⟨_, rfl, rfl⟩

/-- C3 witness: an empty project directory exits 1 writing nothing; a clean
single-locale project exits 0. -/
theorem C3_witness :
    (discover_locales ⟨["readme.md"], []⟩ "ChessDuo" "Localizable" = []
        ∧ mainRun ⟨["readme.md"], []⟩ {} = .ok ⟨1, [], []⟩)
      ∧ (discover_locales
            ⟨["en.lproj"], [("ChessDuo/en.lproj/Localizable.strings", "\"a\" = \"b\";".data)]⟩
            "ChessDuo" "Localizable" ≠ []
          ∧ ∃ r, mainRun
              ⟨["en.lproj"], [("ChessDuo/en.lproj/Localizable.strings", "\"a\" = \"b\";".data)]⟩
              {} = .ok r ∧ r.exitCode = 0) :=
  ⟨⟨by decide, (C3_exit_codes ⟨["readme.md"], []⟩ {}).1 (by decide)⟩,
    ⟨by decide,
      (C3_exit_codes
          ⟨["en.lproj"], [("ChessDuo/en.lproj/Localizable.strings", "\"a\" = \"b\";".data)]⟩
          {}).2 (by decide) (Or.inr (Or.inr (by decide)))⟩⟩

/-- A successful table lookup returns one of the table's values. -/
theorem alook_some_mem {α β : Type} [DecidableEq α] (k : α) (t : List (α × β)) (v : β)
    (h : alook k t = some v) : v ∈ t.map (·.2) := by
  induction t with
  | nil => simp [alook] at h
  | cons e rest ih =>
    by_cases he : e.1 = k
    · rw [alook, List.find?_cons_of_pos _ (by simpa using he)] at h
      simp only [Option.map_some', Option.some.injEq] at h
      simp [← h]
    · rw [alook, List.find?_cons_of_neg _ (by simpa using he)] at h
      exact List.mem_cons_of_mem _ (ih h)

/-- In a table with pairwise distinct values, a value determines its key. -/
theorem alook_inj {α β : Type} [DecidableEq α] (t : List (α × β)) (hnd : (t.map (·.2)).Nodup)
    (k₁ k₂ : α) (v : β) (h₁ : alook k₁ t = some v) (h₂ : alook k₂ t = some v) : k₁ = k₂ := by
  induction t with
  | nil => simp [alook] at h₁
  | cons e rest ih =>
    have hnd' : (rest.map (·.2)).Nodup := (List.nodup_cons.1 hnd).2
    have hv : e.2 ∉ rest.map (·.2) := (List.nodup_cons.1 hnd).1
    by_cases he₁ : e.1 = k₁ <;> by_cases he₂ : e.1 = k₂
    · rw [← he₁, ← he₂]
    · rw [alook, List.find?_cons_of_pos _ (by simpa using he₁)] at h₁
      rw [alook, List.find?_cons_of_neg _ (by simpa using he₂)] at h₂
      simp only [Option.map_some', Option.some.injEq] at h₁
      exact absurd (h₁ ▸ alook_some_mem k₂ rest v h₂) hv
    · rw [alook, List.find?_cons_of_neg _ (by simpa using he₁)] at h₁
      rw [alook, List.find?_cons_of_pos _ (by simpa using he₂)] at h₂
      simp only [Option.map_some', Option.some.injEq] at h₂
      exact absurd (h₂ ▸ alook_some_mem k₁ rest v h₁) hv
    · rw [alook, List.find?_cons_of_neg _ (by simpa using he₁)] at h₁
      rw [alook, List.find?_cons_of_neg _ (by simpa using he₂)] at h₂
      exact ih hnd' h₁ h₂

/-- Distinct recognized language names yield distinct locale codes (the fixed
table maps distinct names to distinct codes). -/
theorem nodup_recognizedLocales (pairs : Blocks) (h : (recognizedLangs pairs).Nodup) :
    (recognizedLocales pairs).Nodup := by
  induction pairs with
  | nil => simp [recognizedLocales]
  | cons p ps ih =>
    cases ha : alook p.1 LOCALES with
    | none =>
      have hl : recognizedLangs (p :: ps) = recognizedLangs ps := by
        simp [recognizedLangs, List.filter_cons, ha]
      rw [hl] at h
      simpa [recognizedLocales, List.filterMap_cons, ha] using ih h
    | some v =>
      have hl : recognizedLangs (p :: ps) = p.1 :: recognizedLangs ps := by
        simp [recognizedLangs, List.filter_cons, ha]
      rw [hl, List.nodup_cons] at h
      rw [recognizedLocales, List.filterMap_cons, ha, List.nodup_cons]
      refine ⟨?_, ih h.2⟩
      intro hv
      rw [List.mem_filterMap] at hv
      obtain ⟨q, hq, hqv⟩ := hv
      have : q.1 = p.1 :=
        alook_inj LOCALES (by decide) q.1 p.1 v hqv ha
      refine h.1 ?_
      rw [← this, recognizedLangs, List.mem_map]
      exact ⟨q, List.mem_filter.2 ⟨hq, by simp [hqv]⟩, rfl⟩

/-- A repeated head collapses in the first-seen deduplication. -/
theorem firstDedupAux_cons_cons {α : Type} [DecidableEq α] (seen : List α) (x : α)
    (l : List α) : firstDedupAux seen (x :: x :: l) = firstDedupAux seen (x :: l) := by
  by_cases hx : x ∈ seen
  · conv_lhs => rw [firstDedupAux, if_pos hx]
  · conv_lhs => rw [firstDedupAux, if_neg hx, firstDedupAux,
      if_pos (show x ∈ seen ++ [x] by simp)]
    conv_rhs => rw [firstDedupAux, if_neg hx]

/-- Deduplicating the five-fold repetition of each locale is deduplicating the
locales. -/
theorem firstDedupAux_flatMap_five (recs : List String) : ∀ seen : List String,
    firstDedupAux seen (recs.flatMap (fun loc => [loc, loc, loc, loc, loc]))
      = firstDedupAux seen recs := by
  induction recs with
  | nil => intro seen; rfl
  | cons loc rest ih =>
    intro seen
    rw [List.flatMap_cons]
    show firstDedupAux seen (loc :: loc :: loc :: loc :: loc :: rest.flatMap _) = _
    rw [firstDedupAux_cons_cons, firstDedupAux_cons_cons, firstDedupAux_cons_cons,
      firstDedupAux_cons_cons]
    by_cases hl : loc ∈ seen
    · rw [firstDedupAux, if_pos hl, firstDedupAux, if_pos hl]
      exact ih seen
    · rw [firstDedupAux, if_neg hl, firstDedupAux, if_neg hl, ih (seen ++ [loc])]

/-- Deduplication of a duplicate-free list of fresh elements is the identity. -/
theorem firstDedupAux_eq_self {α : Type} [DecidableEq α] (l : List α) : ∀ seen : List α,
    l.Nodup → (∀ x ∈ l, x ∉ seen) → firstDedupAux seen l = l := by
  induction l with
  | nil => intro seen _ _; rfl
  | cons x xs ih =>
    intro seen hnd hfresh
    rw [firstDedupAux, if_neg (hfresh x (List.mem_cons_self x xs)),
      ih (seen ++ [x]) (List.nodup_cons.1 hnd).2]
    intro y hy
    rw [List.mem_append]
    rintro (hys | hyx)
    · exact hfresh y (List.mem_cons_of_mem _ hy) hys
    · exact (List.nodup_cons.1 hnd).1 ((List.mem_singleton.1 hyx) ▸ hy)

/-- Everything already seen deduplicates to nothing. -/
theorem firstDedupAux_all_seen {α : Type} [DecidableEq α] (l : List α) : ∀ seen : List α,
    (∀ x ∈ l, x ∈ seen) → firstDedupAux seen l = [] := by
  induction l with
  | nil => intro seen _; rfl
  | cons x xs ih =>
    intro seen h
    rw [firstDedupAux, if_pos (h x (List.mem_cons_self x xs))]
    exact ih seen fun y hy => h y (List.mem_cons_of_mem _ hy)

/-- An appended tail whose elements are all seen or in the head part is
absorbed by the first-seen deduplication. -/
theorem firstDedupAux_append_absorb {α : Type} [DecidableEq α] (l : List α) :
    ∀ (l' seen : List α), (∀ x ∈ l', x ∈ seen ∨ x ∈ l) →
      firstDedupAux seen (l ++ l') = firstDedupAux seen l := by
  induction l with
  | nil =>
    intro l' seen h
    rw [List.nil_append, firstDedupAux]
    exact firstDedupAux_all_seen l' seen fun x hx => (h x hx).elim id (by simp)
  | cons x xs ih =>
    intro l' seen h
    by_cases hx : x ∈ seen
    · rw [List.cons_append, firstDedupAux, if_pos hx, firstDedupAux, if_pos hx]
      refine ih l' seen fun y hy => ?_
      rcases h y hy with hs | hm
      · exact Or.inl hs
      · rcases List.mem_cons.1 hm with h1 | h1
        · exact Or.inl (h1 ▸ hx)
        · exact Or.inr h1
    · rw [List.cons_append, firstDedupAux, if_neg hx, firstDedupAux, if_neg hx,
        ih l' (seen ++ [x])]
      intro y hy
      rcases h y hy with hs | hm
      · exact Or.inl (List.mem_append_left _ hs)
      · rcases List.mem_cons.1 hm with h1 | h1
        · exact Or.inl (List.mem_append_right _ (by simp [h1]))
        · exact Or.inr h1

open ExportMetadata in
/-- The directory component of each write: five writes per recognized block. -/
theorem exportWrites_dirs (pairs : Blocks) :
    (exportWrites pairs).map (·.1)
      = (recognizedLocales pairs).flatMap (fun loc => [loc, loc, loc, loc, loc]) := by
  rw [exportWrites, List.map_flatMap]
  simp [fiveFiles]

open ExportMetadata in
/-- The file names written into directory `d`: the five fixed names, once per
recognized block targeting `d`. -/
theorem exportWrites_files (pairs : Blocks) (d : String) :
    ((exportWrites pairs).filter (fun w => w.1 = d)).map (·.2)
      = (recognizedLocales pairs).flatMap (fun loc => if loc = d then fiveFiles else []) := by
  rw [exportWrites]
  induction recognizedLocales pairs with
  | nil => rfl
  | cons loc rest ih =>
    rw [List.flatMap_cons, List.flatMap_cons, List.filter_append, List.map_append, ih]
    by_cases hl : loc = d
    · subst hl
      simp [fiveFiles]
    · simp [fiveFiles, hl]

open ExportMetadata in
/-- Joining the per-block five-file lists for blocks targeting `d` and
deduplicating yields exactly the five names, whenever some block targets `d`. -/
theorem firstDedup_files_of_mem (recs : List String) (d : String) (h : d ∈ recs) :
    firstDedup (recs.flatMap (fun loc => if loc = d then fiveFiles else [])) = fiveFiles := by
  induction recs with
  | nil => cases h
  | cons loc rest ih =>
    rw [List.flatMap_cons]
    by_cases hl : loc = d
    · rw [if_pos hl, firstDedup,
        firstDedupAux_append_absorb fiveFiles (rest.flatMap _) [] ?_]
      · exact firstDedupAux_eq_self fiveFiles [] (by decide) (by simp)
      · intro x hx
        rw [List.mem_flatMap] at hx
        obtain ⟨loc', _, hx'⟩ := hx
        by_cases hl' : loc' = d
        · rw [if_pos hl'] at hx'
          exact Or.inr hx'
        · rw [if_neg hl'] at hx'
          cases hx'
    · rw [if_neg hl, List.nil_append]
      rcases List.mem_cons.1 h with h1 | h1
      · exact absurd h1.symm hl
      · exact ih h1

/-- C7 (amended): for a source text whose recognized language names are
pairwise distinct, the exporter creates exactly one locale directory per
recognized block, and every created directory contains exactly the five files
`name.txt`, `subtitle.txt`, `keywords.txt`, `promotional_text.txt`,
`description.txt`.  (Two blocks with the same recognized language share one
directory, so distinctness is required for the count.) -/
theorem C7_export_layout (pairs : Blocks) (h : (recognizedLangs pairs).Nodup) :
    (dirsCreated pairs).length = (recognizedLocales pairs).length
      ∧ ∀ d ∈ dirsCreated pairs, filesInDir pairs d = fiveFiles := by
  have hdirs : dirsCreated pairs = firstDedup (recognizedLocales pairs) := by
    rw [dirsCreated, exportWrites_dirs, firstDedup, firstDedup,
      firstDedupAux_flatMap_five]
  constructor
  · rw [hdirs, firstDedup,
      firstDedupAux_eq_self (recognizedLocales pairs) [] (nodup_recognizedLocales pairs h)
        (by simp)]
  · intro d hd
    have hmem : d ∈ recognizedLocales pairs := by
      rw [hdirs, firstDedup] at hd
      exact ((mem_firstDedupAux d (recognizedLocales pairs) []).1 hd).1
    rw [filesInDir, exportWrites_files]
    exact firstDedup_files_of_mem (recognizedLocales pairs) d hmem

/-- C7 witness: two blocks with distinct recognized languages create two
directories of five files each. -/
theorem C7_witness :
    (recognizedLangs [("German", "g".data), ("English", "e".data)]).Nodup
      ∧ (dirsCreated [("German", "g".data), ("English", "e".data)]).length
        = (recognizedLocales [("German", "g".data), ("English", "e".data)]).length
      ∧ ∀ d ∈ dirsCreated [("German", "g".data), ("English", "e".data)],
          filesInDir [("German", "g".data), ("English", "e".data)] d = fiveFiles :=
  ⟨by decide,
    (C7_export_layout [("German", "g".data), ("English", "e".data)] (by decide)).1,
    (C7_export_layout [("German", "g".data), ("English", "e".data)] (by decide)).2⟩

/-- Strict lexicographic comparison is irreflexive. -/
theorem lexLt_irrefl (a : List Char) : lexLt a a = false := by
  induction a with
  | nil => rfl
  | cons x xs ih => simp [lexLt, lt_irrefl, ih]

/-- Strict lexicographic comparison is transitive. -/
theorem lexLt_trans (a : List Char) : ∀ b c : List Char,
    lexLt a b = true → lexLt b c = true → lexLt a c = true := by
  induction a with
  | nil =>
    intro b c h1 h2
    cases b with
    | nil => exact absurd h1 (by simp [lexLt])
    | cons y ys =>
      cases c with
      | nil => exact absurd h2 (by simp [lexLt])
      | cons z zs => simp [lexLt]
  | cons x xs ih =>
    intro b c h1 h2
    cases b with
    | nil => exact absurd h1 (by simp [lexLt])
    | cons y ys =>
      cases c with
      | nil => exact absurd h2 (by simp [lexLt])
      | cons z zs =>
        by_cases hxy : x < y
        · by_cases hyz : y < z
          · simp [lexLt, lt_trans hxy hyz]
          · by_cases hzy : z < y
            · rw [lexLt, if_neg hyz, if_pos hzy] at h2
              cases h2
            · have : y = z := le_antisymm (not_lt.1 hzy) (not_lt.1 hyz)
              subst this
              simp [lexLt, hxy]
        · by_cases hyx : y < x
          · rw [lexLt, if_neg hxy, if_pos hyx] at h1
            cases h1
          · have : x = y := le_antisymm (not_lt.1 hyx) (not_lt.1 hxy)
            subst this
            rw [lexLt, if_neg (lt_irrefl x), if_neg (lt_irrefl x)] at h1
            by_cases hyz : x < z
            · simp [lexLt, hyz]
            · by_cases hzy : z < x
              · rw [lexLt, if_neg hyz, if_pos hzy] at h2
                cases h2
              · have : x = z := le_antisymm (not_lt.1 hzy) (not_lt.1 hyz)
                subst this
                rw [lexLt, if_neg (lt_irrefl x), if_neg (lt_irrefl x)] at h2 ⊢
                exact ih ys zs h1 h2

/-- Two lists neither of which is lexicographically below the other are
equal. -/
theorem lexLt_connex (a : List Char) : ∀ b : List Char,
    lexLt a b = false → lexLt b a = false → a = b := by
  induction a with
  | nil =>
    intro b h1 _
    cases b with
    | nil => rfl
    | cons y ys => exact absurd h1 (by simp [lexLt])
  | cons x xs ih =>
    intro b h1 h2
    cases b with
    | nil => exact absurd h2 (by simp [lexLt])
    | cons y ys =>
      by_cases hxy : x < y
      · rw [lexLt, if_pos hxy] at h1
        cases h1
      · by_cases hyx : y < x
        · rw [lexLt, if_pos hyx] at h2
          cases h2
        · have hx : x = y := le_antisymm (not_lt.1 hyx) (not_lt.1 hxy)
          subst hx
          rw [lexLt, if_neg (lt_irrefl x), if_neg (lt_irrefl x)] at h1 h2
          rw [ih ys h1 h2]

/-- Relation `lexLe` is total. -/
theorem lexLe_total (a b : List Char) : lexLe a b = true ∨ lexLe b a = true := by
  by_cases h : lexLt b a = true
  · right
    rw [lexLe, Bool.not_eq_true']
    by_cases h' : lexLt a b = true
    · exact absurd (lexLt_trans a b a h' h) (by simp [lexLt_irrefl])
    · exact Bool.not_eq_true _ ▸ h'
  · left
    rw [lexLe]
    simp [Bool.not_eq_true _ ▸ h]

/-- Relation `lexLe` is transitive. -/
theorem lexLe_trans (a b c : List Char) (h1 : lexLe a b = true) (h2 : lexLe b c = true) :
    lexLe a c = true := by
  rw [lexLe, Bool.not_eq_true'] at h1 h2 ⊢
  by_cases hca : lexLt c a = true
  · by_cases hab : lexLt a b = true
    · exact absurd (lexLt_trans c a b hca hab) (by simp [h2])
    · have : a = b := lexLt_connex a b (by simpa using hab) h1
      subst this
      exact absurd hca (by simp [h2])
  · simpa using hca

/-- Membership after a sorted insertion. -/
theorem mem_insertLe (a x : String) (l : List String) :
    a ∈ insertLe x l ↔ a = x ∨ a ∈ l := by
  induction l with
  | nil => simp [insertLe]
  | cons y ys ih =>
    rw [insertLe]
    by_cases h : lexLe x.data y.data = true
    · simp [h]
    · rw [if_neg h]
      rw [List.mem_cons, List.mem_cons, ih]
      tauto

/-- Function `sortStr` permutes membership. -/
theorem mem_sortStr (a : String) (l : List String) : a ∈ sortStr l ↔ a ∈ l := by
  induction l with
  | nil => simp [sortStr]
  | cons x xs ih =>
    rw [sortStr, mem_insertLe, ih, List.mem_cons]

/-- Sorted insertion preserves sortedness. -/
theorem pairwise_insertLe (x : String) (l : List String)
    (h : l.Pairwise (fun a b => lexLe a.data b.data = true)) :
    (insertLe x l).Pairwise (fun a b => lexLe a.data b.data = true) := by
  induction l with
  | nil => simp [insertLe]
  | cons y ys ih =>
    rw [List.pairwise_cons] at h
    rw [insertLe]
    by_cases hxy : lexLe x.data y.data = true
    · rw [if_pos hxy, List.pairwise_cons]
      refine ⟨?_, List.pairwise_cons.2 h⟩
      intro z hz
      rcases List.mem_cons.1 hz with h1 | h1
      · exact h1 ▸ hxy
      · exact lexLe_trans x.data y.data z.data hxy (h.1 z h1)
    · rw [if_neg hxy, List.pairwise_cons]
      refine ⟨?_, ih h.2⟩
      intro z hz
      rcases (mem_insertLe z x ys).1 hz with h1 | h1
      · rw [h1]
        rcases (lexLe_total x.data y.data) with ht | ht
        · exact absurd ht hxy
        · exact ht
      · exact h.1 z h1

/-- The insertion sort modelling Python `sorted` produces an ascending list. -/
theorem pairwise_sortStr (l : List String) :
    (sortStr l).Pairwise (fun a b => lexLe a.data b.data = true) := by
  induction l with
  | nil => simp [sortStr]
  | cons x xs ih => exact pairwise_insertLe x (sortStr xs) ih

/-- An entry ending in `.lproj` is its locale code followed by `.lproj`. -/
theorem lproj_reconstruct (e : String) (h : pyEndsWith e ".lproj" = true) :
    dropLproj e ++ ".lproj" = e := by
  rw [pyEndsWith, List.isSuffixOf_iff_suffix] at h
  obtain ⟨pre, hpre⟩ := h
  cases e with
  | mk d =>
    simp only at hpre
    rw [dropLproj]
    simp only
    rw [← hpre]
    have hlen : (pre ++ ".lproj".data).length - 6 = pre.length := by
      simp [List.length_append]
    rw [hlen, List.take_left]
    show String.mk (pre ++ ".lproj".data) = _
    rw [hpre]

/-- The locale code of an entry built from a locale code. -/
theorem dropLproj_append (loc : String) : dropLproj (loc ++ ".lproj") = loc := by
  cases loc with
  | mk d =>
    rw [dropLproj]
    show String.mk ((d ++ ".lproj".data).take ((d ++ ".lproj".data).length - 6)) = _
    have hlen : (d ++ ".lproj".data).length - 6 = d.length := by
      simp [List.length_append]
    rw [hlen, List.take_left]

/-- An entry built from a locale code ends in `.lproj`. -/
theorem pyEndsWith_append (loc : String) : pyEndsWith (loc ++ ".lproj") ".lproj" = true := by
  rw [pyEndsWith, List.isSuffixOf_iff_suffix]
  exact ⟨loc.data, rfl⟩

/-- What the discovery step's per-entry function returns. -/
theorem discover_step_eq_some (fs : FS) (pd bn e loc p : String)
    (h : (if pyEndsWith e ".lproj" = true then
            if fs.isFile (stringsPath pd e bn) = true
            then some (dropLproj e, stringsPath pd e bn) else none
          else none) = some (loc, p)) :
    pyEndsWith e ".lproj" = true ∧ fs.isFile (stringsPath pd e bn) = true
      ∧ loc = dropLproj e ∧ p = stringsPath pd e bn := by
  by_cases h1 : pyEndsWith e ".lproj" = true
  · rw [if_pos h1] at h
    by_cases h2 : fs.isFile (stringsPath pd e bn) = true
    · rw [if_pos h2] at h
      injection h with h
      exact ⟨h1, h2, (congrArg Prod.fst h).symm, (congrArg Prod.snd h).symm⟩
    · rw [if_neg h2] at h
      cases h
  · rw [if_neg h1] at h
    cases h

/-- C5 (amended): `discover_locales` returns exactly the pairs for entries
`<locale>.lproj` of the project directory whose folder holds
`<basename>.strings`, with the locale obtained by stripping the suffix — but
the list is sorted by the full directory entry name `<locale>.lproj`, not by
the locale code; since `-` precedes `.`, `zh-Hans` comes before `zh`. -/
theorem C5_discover_characterization (fs : FS) (pd bn : String) :
    (∀ loc p : String,
        ((loc, p) ∈ discover_locales fs pd bn
          ↔ (loc ++ ".lproj") ∈ fs.entries
              ∧ fs.isFile (stringsPath pd (loc ++ ".lproj") bn) = true
              ∧ p = stringsPath pd (loc ++ ".lproj") bn))
      ∧ ((discover_locales fs pd bn).map (fun q => q.1 ++ ".lproj")).Pairwise
          (fun a b => lexLe a.data b.data = true) := by
  constructor
  · intro loc p
    rw [discover_locales, List.mem_filterMap]
    constructor
    · rintro ⟨e, he, hf⟩
      obtain ⟨h1, h2, h3, h4⟩ := discover_step_eq_some fs pd bn e loc p hf
      have he' : loc ++ ".lproj" = e := by
        rw [h3]
        exact lproj_reconstruct e h1
      rw [he']
      exact ⟨(mem_sortStr e fs.entries).1 he, h2, h4⟩
    · rintro ⟨hmem, hfile, hp⟩
      refine ⟨loc ++ ".lproj", (mem_sortStr _ fs.entries).2 hmem, ?_⟩
      show (if pyEndsWith (loc ++ ".lproj") ".lproj" = true then
              if fs.isFile (stringsPath pd (loc ++ ".lproj") bn) = true
              then some (dropLproj (loc ++ ".lproj"), stringsPath pd (loc ++ ".lproj") bn)
              else none
            else none) = some (loc, p)
      rw [if_pos (pyEndsWith_append loc), if_pos hfile, dropLproj_append, hp]
  · have hsub : ∀ l : List String,
        ((l.filterMap (fun entry =>
            if pyEndsWith entry ".lproj" = true then
              if fs.isFile (stringsPath pd entry bn) = true
              then some (dropLproj entry, stringsPath pd entry bn) else none
            else none)).map (fun q => q.1 ++ ".lproj")).Sublist l := by
      intro l
      induction l with
      | nil => simp
      | cons e es ih =>
        rw [List.filterMap_cons]
        cases hf : (if pyEndsWith e ".lproj" = true then
            if fs.isFile (stringsPath pd e bn) = true
            then some (dropLproj e, stringsPath pd e bn) else none
          else none) with
        | none => exact ih.cons e
        | some q =>
          obtain ⟨h1, _, h3, _⟩ :=
            discover_step_eq_some fs pd bn e q.1 q.2 (by rw [hf])
          rw [List.map_cons]
          have : q.1 ++ ".lproj" = e := by
            rw [h3]
            exact lproj_reconstruct e h1
          rw [this]
          exact ih.cons₂ e
    have hd : discover_locales fs pd bn
        = (sortStr fs.entries).filterMap (fun entry =>
            if pyEndsWith entry ".lproj" = true then
              if fs.isFile (stringsPath pd entry bn) = true
              then some (dropLproj entry, stringsPath pd entry bn) else none
            else none) := rfl
    rw [hd]
    exact List.Pairwise.sublist (hsub (sortStr fs.entries)) (pairwise_sortStr fs.entries)

/-- A leading whitespace run is consumed when a match can start. -/
theorem subLineLeadWs_ws_run (w : List Char) : ∀ s : List Char,
    (∀ c ∈ w, isPyWs c = true) →
      subLineLeadWs true (w ++ s) = subLineLeadWs true s := by
  induction w with
  | nil => intro s _; rfl
  | cons c cs ih =>
    intro s h
    rw [List.cons_append, subLineLeadWs,
      if_pos (by simp [h c (List.mem_cons_self c cs)])]
    exact ih s fun x hx => h x (List.mem_cons_of_mem _ hx)

/-- Outside a match, a newline-free segment is copied verbatim. -/
theorem subLineLeadWs_copy (t : List Char) : ∀ s : List Char, '\n' ∉ t →
    subLineLeadWs false (t ++ s) = t ++ subLineLeadWs false s := by
  induction t with
  | nil => intro s _; rfl
  | cons c cs ih =>
    intro s h
    have hd : (decide (c = '\n') : Bool) = false := by
      simp only [decide_eq_false_iff_not]
      intro hc
      exact h (hc ▸ List.mem_cons_self c cs)
    rw [List.cons_append, subLineLeadWs, if_neg (by simp), hd, List.cons_append]
    rw [ih s fun hx => h (List.mem_cons_of_mem _ hx)]

/-- A segment starting with a non-whitespace character and free of newlines is
copied verbatim from any state, leaving the scanner mid-line. -/
theorem subLineLeadWs_line (b : Bool) (c : Char) (t s : List Char)
    (hc : isPyWs c = false) (hnl : '\n' ∉ c :: t) :
    subLineLeadWs b ((c :: t) ++ s) = c :: t ++ subLineLeadWs false s := by
  have hd : (decide (c = '\n') : Bool) = false := by
    simp only [decide_eq_false_iff_not]
    intro h
    exact hnl (h ▸ List.mem_cons_self c t)
  rw [List.cons_append, subLineLeadWs, if_neg (by simp [hc]), hd,
    subLineLeadWs_copy t s fun hx => hnl (List.mem_cons_of_mem _ hx), List.cons_append]

/-- A fully whitespace input is consumed entirely. -/
theorem subLineLeadWs_all_ws (s : List Char) (h : ∀ c ∈ s, isPyWs c = true) :
    subLineLeadWs true s = [] := by
  have := subLineLeadWs_ws_run s [] h
  rwa [List.append_nil] at this

/-- Function `splitNl` never returns the empty list. -/
theorem splitNl_ne_nil (s : List Char) : splitNl s ≠ [] := by
  cases s with
  | nil => simp [splitNl]
  | cons c cs =>
    rw [splitNl]
    cases splitNl cs with
    | nil => by_cases h : c = '\n' <;> simp [h]
    | cons l ls => by_cases h : c = '\n' <;> simp [h]

/-- Function `splitNl` of a newline-free text gives that single line. -/
theorem splitNl_no_newline (s : List Char) (h : '\n' ∉ s) : splitNl s = [s] := by
  induction s with
  | nil => rfl
  | cons c cs ih =>
    have hc : ¬ c = '\n' := fun hc => h (by rw [← hc]; exact List.mem_cons_self c cs)
    rw [splitNl, ih fun hx => h (List.mem_cons_of_mem _ hx)]
    simp [hc]

/-- Function `splitNl` splits off a first newline-free line. -/
theorem splitNl_append_newline (l : List Char) : ∀ r : List Char, '\n' ∉ l →
    splitNl (l ++ '\n' :: r) = l :: splitNl r := by
  induction l with
  | nil =>
    intro r _
    rw [List.nil_append, splitNl]
    cases h : splitNl r with
    | nil => exact absurd h (splitNl_ne_nil r)
    | cons x xs => simp
  | cons c cs ih =>
    intro r h
    have hc : ¬ c = '\n' := fun hc => h (by rw [← hc]; exact List.mem_cons_self c cs)
    rw [List.cons_append, splitNl, ih r fun hx => h (List.mem_cons_of_mem _ hx)]
    simp [hc]

/-- Every character sequence is newline free or splits at its first newline. -/
theorem newline_decomp (s : List Char) :
    '\n' ∉ s ∨ ∃ l r : List Char, s = l ++ '\n' :: r ∧ '\n' ∉ l := by
  induction s with
  | nil => exact Or.inl (by simp)
  | cons c cs ih =>
    by_cases hc : c = '\n'
    · exact Or.inr ⟨[], cs, by rw [hc, List.nil_append], by simp⟩
    · rcases ih with h | ⟨l, r, hs, hl⟩
      · refine Or.inl ?_
        rw [List.mem_cons]
        rintro (h1 | h1)
        · exact hc h1.symm
        · exact h h1
      · refine Or.inr ⟨c :: l, r, by rw [hs, List.cons_append], ?_⟩
        rw [List.mem_cons]
        rintro (h1 | h1)
        · exact hc h1.symm
        · exact hl h1

/-- The head of a `dropWhile` result fails the predicate. -/
theorem dropWhile_head_false {α : Type} (p : α → Bool) (l : List α) (c : α) (cs : List α)
    (h : l.dropWhile p = c :: cs) : p c = false := by
  induction l with
  | nil => cases h
  | cons x xs ih =>
    rw [List.dropWhile] at h
    cases hx : p x with
    | true =>
      rw [hx] at h
      exact ih h
    | false =>
      rw [hx] at h
      injection h with h1 _
      rw [← h1]
      exact hx

/-- Function `specCleanLines` on a newline-free text. -/
theorem specCleanLines_no_newline (s : List Char) (h : '\n' ∉ s) :
    specCleanLines s
      = if (s.dropWhile isPyWs).isEmpty then [] else [s.dropWhile isPyWs] := by
  rw [specCleanLines, splitNl_no_newline s h]
  by_cases he : (s.dropWhile isPyWs).isEmpty <;> simp [he]

/-- Function `specCleanLines` across the first line break. -/
theorem specCleanLines_append (l r : List Char) (h : '\n' ∉ l) :
    specCleanLines (l ++ '\n' :: r)
      = (if (l.dropWhile isPyWs).isEmpty then [] else [l.dropWhile isPyWs])
          ++ specCleanLines r := by
  rw [specCleanLines, splitNl_append_newline l r h, List.map_cons, List.filter_cons,
    specCleanLines]
  by_cases he : (l.dropWhile isPyWs).isEmpty <;> simp [he]

/-- Joining a single piece. -/
theorem intercalate_single (sep x : List Char) : List.intercalate sep [x] = x := by
  simp [List.intercalate]

/-- Joining at least two pieces. -/
theorem intercalate_cons₂ (sep x y : List Char) (ys : List (List Char)) :
    List.intercalate sep (x :: y :: ys) = x ++ sep ++ List.intercalate sep (y :: ys) := by
  simp [List.intercalate, List.intersperse]

/-- The join of the cleaned lines is nonempty whenever some line survives. -/
theorem intercalate_specCleanLines_ne_nil (s : List Char) (h : specCleanLines s ≠ []) :
    List.intercalate ['\n'] (specCleanLines s) ≠ [] := by
  cases hscl : specCleanLines s with
  | nil => exact absurd hscl h
  | cons x xs =>
    have hx : x ∈ specCleanLines s := hscl ▸ List.mem_cons_self x xs
    have hxe : ¬ x.isEmpty := by
      rw [specCleanLines] at hx
      exact by simpa using (List.mem_filter.1 hx).2
    cases xs with
    | nil =>
      rw [intercalate_single]
      simpa [List.isEmpty_iff] using hxe
    | cons y ys =>
      rw [intercalate_cons₂]
      intro hcontr
      rcases List.append_eq_nil.1 (List.append_eq_nil.1 hcontr).1 with ⟨h1, _⟩
      rw [h1] at hxe
      exact hxe rfl

/-- Function `dropWhile` over an append. -/
theorem dropWhile_append_eq {α : Type} (p : α → Bool) (x : List α) : ∀ y : List α,
    (x ++ y).dropWhile p
      = if (x.dropWhile p).isEmpty then y.dropWhile p else x.dropWhile p ++ y := by
  induction x with
  | nil => intro y; simp
  | cons c cs ih =>
    intro y
    rw [List.cons_append, List.dropWhile, List.dropWhile]
    cases hc : p c with
    | true => exact ih y
    | false => simp

/-- Stripping ignores a trailing whitespace character. -/
theorem pyStrip_append_ws (x : List Char) (c : Char) (h : isPyWs c = true) :
    pyStrip (x ++ [c]) = pyStrip x := by
  rw [pyStrip, pyStrip, dropWhile_append_eq]
  cases hd : (x.dropWhile isPyWs).isEmpty with
  | true =>
    rw [if_pos rfl]
    have : List.dropWhile isPyWs [c] = [] := by simp [List.dropWhile, h]
    rw [this]
    rw [List.isEmpty_iff] at hd
    rw [hd]
  | false =>
    rw [if_neg (by simp [hd]), List.reverse_append]
    simp only [List.reverse_cons, List.reverse_nil, List.nil_append, List.singleton_append,
      List.dropWhile]
    rw [h]
    simp

/-- The substitution pass equals the joined cleaned lines, possibly with one
trailing newline left over from the last kept line (absorbed later by the
outer strip); the leftover occurs only when some line was kept. -/
theorem subLineLeadWs_eq_join : ∀ (n : Nat) (s : List Char), s.length ≤ n →
    subLineLeadWs true s = List.intercalate ['\n'] (specCleanLines s)
      ∨ (subLineLeadWs true s = List.intercalate ['\n'] (specCleanLines s) ++ ['\n']
          ∧ List.intercalate ['\n'] (specCleanLines s) ≠ []) := by
  intro n
  induction n with
  | zero =>
    intro s hs
    have h0 : s = [] := List.length_eq_zero.1 (Nat.le_zero.1 hs)
    subst h0
    exact Or.inl rfl
  | succ n ih =>
    intro s hs
    rcases newline_decomp s with hno | ⟨l, r, hsplit, hl⟩
    · have hws : ∀ c ∈ s.takeWhile isPyWs, isPyWs c = true := fun c hc =>
        List.mem_takeWhile_imp hc
      cases ht : s.dropWhile isPyWs with
      | nil =>
        left
        rw [specCleanLines_no_newline s hno, ht,
          subLineLeadWs_all_ws s (List.dropWhile_eq_nil_iff.1 ht)]
        rfl
      | cons c cs =>
        left
        have hc : isPyWs c = false := dropWhile_head_false isPyWs s c cs ht
        have hnl : '\n' ∉ c :: cs := fun hx =>
          hno ((List.dropWhile_sublist isPyWs).mem (ht ▸ hx))
        have hsw : s = s.takeWhile isPyWs ++ (c :: cs) := by
          rw [← ht, List.takeWhile_append_dropWhile]
        have hline : subLineLeadWs true s = c :: cs := by
          conv_lhs => rw [hsw]
          rw [subLineLeadWs_ws_run _ _ hws]
          have h2 := subLineLeadWs_line true c cs [] hc hnl
          rw [List.append_nil] at h2
          rw [h2]
          simp [subLineLeadWs]
        rw [hline, specCleanLines_no_newline s hno, ht, if_neg (by simp),
          intercalate_single]
    · subst hsplit
      have hr : r.length ≤ n := by
        simp only [List.length_append, List.length_cons] at hs
        omega
      have hltw : ∀ c ∈ l.takeWhile isPyWs, isPyWs c = true := fun c hc =>
        List.mem_takeWhile_imp hc
      cases htd : l.dropWhile isPyWs with
      | nil =>
        have hallws : ∀ c ∈ l ++ ['\n'], isPyWs c = true := by
          intro c hc
          rcases List.mem_append.1 hc with h1 | h1
          · exact List.dropWhile_eq_nil_iff.1 htd c h1
          · rw [List.mem_singleton.1 h1]
            rfl
        have hsub : subLineLeadWs true (l ++ '\n' :: r) = subLineLeadWs true r := by
          have h2 := subLineLeadWs_ws_run (l ++ ['\n']) r hallws
          rwa [List.append_assoc, List.singleton_append] at h2
        rw [hsub, specCleanLines_append l r hl, htd]
        have hredux : (if ([] : List Char).isEmpty = true then ([] : List (List Char))
            else [[]]) = [] := rfl
        rw [hredux, List.nil_append]
        exact ih r hr
      | cons c cs =>
        have hc : isPyWs c = false := dropWhile_head_false isPyWs l c cs htd
        have hnl : '\n' ∉ c :: cs := fun hx =>
          hl ((List.dropWhile_sublist isPyWs).mem (htd ▸ hx))
        have hre : l ++ '\n' :: r = l.takeWhile isPyWs ++ (c :: cs ++ '\n' :: r) := by
          rw [← List.append_assoc]
          rw [show l.takeWhile isPyWs ++ (c :: cs) = l by
            rw [← htd, List.takeWhile_append_dropWhile]]
        have hstep : subLineLeadWs false ('\n' :: r) = '\n' :: subLineLeadWs true r := by
          rw [subLineLeadWs, if_neg (by simp)]
          simp
        have hLHS : subLineLeadWs true (l ++ '\n' :: r)
            = c :: (cs ++ '\n' :: subLineLeadWs true r) := by
          conv_lhs => rw [hre]
          rw [subLineLeadWs_ws_run _ _ hltw,
            subLineLeadWs_line true c cs ('\n' :: r) hc hnl, hstep]
          simp
        rw [hLHS, specCleanLines_append l r hl, htd]
        have hredux : (if (c :: cs : List Char).isEmpty = true then ([] : List (List Char))
            else [c :: cs]) = [c :: cs] := rfl
        rw [hredux, List.singleton_append]
        cases hscl : specCleanLines r with
        | nil =>
          right
          rw [intercalate_single]
          have hJr : List.intercalate ['\n'] (specCleanLines r) = [] := by
            rw [hscl]
            rfl
          rcases ih r hr with h1 | ⟨_, h2⟩
          · rw [h1, hJr]
            exact ⟨by simp, by simp⟩
          · exact absurd hJr h2
        | cons x xs =>
          rw [intercalate_cons₂]
          rcases ih r hr with h1 | ⟨h1, _⟩
          · left
            rw [hscl] at h1
            rw [h1]
            simp
          · right
            rw [hscl] at h1
            rw [h1]
            exact ⟨by simp, by simp⟩

/-- C8 (amended): normalization strips the leading whitespace of every line,
where a whitespace run starting at a line start also swallows the newlines it
reaches — so a line that becomes blank is removed entirely and its neighbours
merge — then trims surrounding whitespace and terminates with exactly one
newline: `clean_desc` equals the line model that drops emptied lines and joins
the survivors with single newlines. -/
theorem C8_clean_desc_normalization (s : List Char) :
    clean_desc s = specCleanDesc s := by
  rw [clean_desc, specCleanDesc]
  rcases subLineLeadWs_eq_join s.length s (le_refl _) with h | ⟨h, _⟩
  · rw [h]
  · rw [h, pyStrip_append_ws _ '\n' rfl]
